import Mathlib

/-!
Verification development for the SQLight repository (Go).

The definitions below are a shallow embedding of the repository's core:
the statement executor of `pkg/db/database.go` (package `sqlight`), the
JSON persistence round trip (`save`/`load`), the B+ tree of
`pkg/db/btree.go` (the file appearing as `unnamed/part_007`, with the
extra `BTreeSimple` of `part_006`), the `sqlite-clone` variant's
`Table.Update`, and the prefix dispatch of `pkg/sql/parser.go`.

Modelling conventions:
* Go `interface{}` cell values become the tagged union `Val`.
  Go `float64` is modelled by `Rat` (exact arithmetic; no claim below
  depends on binary rounding).
* Go maps become association lists; `map[k]=v` is `assocPut` (replace the
  first exact key or append), a read of a missing key yields the zero
  value (`Val.null` for `interface{}`), and map iteration order becomes
  list order.
* File persistence is modelled as a pure value (`saveTables`), so the
  executor's `d.save()` calls are successful no-ops on the in-memory
  state.
* Go's `(*Result, error)` returns become `Database × Option String`; the
  source returns errors before its single mutating step, so the error
  branches return the input state unchanged.
-/

/-- Runtime cell value (Go `interface{}` as used by the engine:
`int`, `float64`, `string`, `bool`, `nil`). -/
inductive Val where
  | int   (n : Int)
  | float (q : Rat)
  | str   (s : String)
  | bool  (b : Bool)
  | null
deriving DecidableEq

/-- Go `int(f)` conversion from `float64`: truncation toward zero. -/
def ratTrunc (q : Rat) : Int :=
  if 0 ≤ q then q.floor else q.ceil

/-- Digits of a decimal literal to a natural number; `none` if the list is
empty or contains a non-digit (mirrors `strconv` rejecting garbage). -/
def digitsToNat (l : List Char) : Option Nat :=
  if l ≠ [] ∧ l.all Char.isDigit then
    some (l.foldl (fun a c => a * 10 + (c.toNat - '0'.toNat)) 0)
  else none

/-- Go `strconv.Atoi`: optional sign, then decimal digits. -/
def goAtoi (s : String) : Option Int :=
  match s.data with
  | [] => none
  | '+' :: rest => (digitsToNat rest).map Int.ofNat
  | '-' :: rest => (digitsToNat rest).map (fun n => -(n : Int))
  | l => (digitsToNat l).map Int.ofNat

/-- Exponent part of a float literal (`e`/`E` already consumed). -/
def goParseExp (l : List Char) : Option Int :=
  match l with
  | [] => none
  | '+' :: rest => (digitsToNat rest).map Int.ofNat
  | '-' :: rest => (digitsToNat rest).map (fun n => -(n : Int))
  | _ => (digitsToNat l).map Int.ofNat

/-- Unsigned body of a float literal: digits, optional fraction, optional
exponent.  (Hex floats, `inf` and `NaN` accepted by Go are not modelled;
no claim involves them.) -/
def goParseFloatBody (l : List Char) : Option Rat :=
  let mant := l.takeWhile Char.isDigit
  let rest := l.dropWhile Char.isDigit
  match rest with
  | [] => (digitsToNat mant).map (fun n => (n : Rat))
  | '.' :: rest2 =>
    let frac := rest2.takeWhile Char.isDigit
    let rest3 := rest2.dropWhile Char.isDigit
    if mant = [] ∧ frac = [] then none
    else
      let mval : Nat := (digitsToNat mant).getD 0
      let fval : Nat := (digitsToNat frac).getD 0
      let base : Rat := (mval : Rat) + (fval : Rat) / ((10 : Rat) ^ frac.length)
      match rest3 with
      | [] => some base
      | c :: rest4 =>
        if c = 'e' ∨ c = 'E' then (goParseExp rest4).map (fun ex => base * (10 : Rat) ^ ex)
        else none
  | c :: rest2 =>
    if c = 'e' ∨ c = 'E' then
      (digitsToNat mant).bind (fun n => (goParseExp rest2).map (fun ex => (n : Rat) * (10 : Rat) ^ ex))
    else none

/-- Go `strconv.ParseFloat` (decimal forms). -/
def goParseFloat (s : String) : Option Rat :=
  match s.data with
  | [] => none
  | '+' :: rest => goParseFloatBody rest
  | '-' :: rest => (goParseFloatBody rest).map (fun q => -q)
  | l => goParseFloatBody l

/-- Go `fmt.Sprintf("%v", x)` on the engine's cell values.  A `nil`
interface prints as `"<nil>"`.  (The exact shortest-form rendering of a
non-integral `float64` is approximated; no claim depends on it.) -/
def goSprintfV (v : Val) : String :=
  match v with
  | .int n => toString n
  | .float q => if q.den = 1 then toString q.num else toString q.num ++ "/" ++ toString q.den
  | .str s => s
  | .bool b => if b then "true" else "false"
  | .null => "<nil>"

/-- ASCII lowercase of a character (kernel-reducible, unlike
`Char.toLower`'s string counterpart). -/
def charLower (c : Char) : Char :=
  if 'A' ≤ c ∧ c ≤ 'Z' then Char.ofNat (c.toNat + 32) else c

/-- ASCII `strings.ToLower` (Go's function also folds non-ASCII letters;
no claim involves those). -/
def strLower (s : String) : String :=
  ⟨s.data.map charLower⟩

/-- Go `strings.EqualFold`, modelled as ASCII case folding. -/
def goEqualFold (a b : String) : Bool :=
  strLower a = strLower b

/-- A row: Go `map[string]interface{}`, as an association list. -/
def Rec : Type := List (String × Val)

instance : DecidableEq Rec := by unfold Rec; infer_instance

instance {e a : Type} [DecidableEq e] [DecidableEq a] : DecidableEq (Except e a) :=
  fun x y =>
    match x, y with
    | .ok u, .ok v =>
      if h : u = v then isTrue (by rw [h]) else isFalse (by intro hc; cases hc; exact h rfl)
    | .error u, .error v =>
      if h : u = v then isTrue (by rw [h]) else isFalse (by intro hc; cases hc; exact h rfl)
    | .ok _, .error _ => isFalse (by intro hc; cases hc)
    | .error _, .ok _ => isFalse (by intro hc; cases hc)

/-- Go map assignment `m[k] = v`: replace the first exact key, else append. -/
def assocPut {α : Type} : List (String × α) → String → α → List (String × α)
  | [], k, v => [(k, v)]
  | (k', v') :: rest, k, v =>
    if k' = k then (k, v) :: rest else (k', v') :: assocPut rest k v

/-- Go map read distinguishing presence: `v, ok := m[k]`. -/
def recGet? (r : Rec) (k : String) : Option Val :=
  match r with
  | [] => none
  | (k', v) :: rest => if k' = k then some v else recGet? rest k

/-- Go map read `m[k]`: the zero value `nil` when the key is absent. -/
def recGet (r : Rec) (k : String) : Val :=
  (recGet? r k).getD .null

/-! ### Value comparison (`pkg/db/database.go`, `compareValues` and the
operator comparators) -/

/-- `compareValues` (database.go:214): typed equality with numeric
coercion and numeric parsing of strings.  Booleans fall through to
`false`; an `int` against an unparsable string falls through to
`false` (no float fallback in that branch, as in the source). -/
def compareValues (v1 v2 : Val) : Bool :=
  match v1, v2 with
  | .null, .null => true
  | .null, _ => false
  | _, .null => false
  | .int a, .int b => a = b
  | .int a, .float b => (a : Rat) = b
  | .int a, .str s =>
    match goAtoi s with
    | some n => a = n
    | none => false
  | .float a, .float b => a = b
  | .float a, .int b => a = (b : Rat)
  | .float a, .str s =>
    match goParseFloat s with
    | some q => a = q
    | none => false
  | .str a, .str b => a = b
  | .str a, .int b =>
    match goAtoi a with
    | some n => n = b
    | none => false
  | .str a, .float b =>
    match goParseFloat a with
    | some q => q = b
    | none => false
  | _, _ => false

/-- `compareInts` (database.go:523). -/
def compareInts (a b : Int) (op : String) : Bool :=
  if op = "=" then a = b
  else if op = "!=" then a ≠ b
  else if op = ">" then b < a
  else if op = "<" then a < b
  else if op = ">=" then b ≤ a
  else if op = "<=" then a ≤ b
  else false

/-- `compareFloats` (database.go:543). -/
def compareFloats (a b : Rat) (op : String) : Bool :=
  if op = "=" then a = b
  else if op = "!=" then a ≠ b
  else if op = ">" then b < a
  else if op = "<" then a < b
  else if op = ">=" then b ≤ a
  else if op = "<=" then a ≤ b
  else false

/-- `compareStrings` (database.go:563): `=`/`!=` use `strings.EqualFold`,
the order operators use byte-lexicographic comparison. -/
def compareStrings (a b : String) (op : String) : Bool :=
  if op = "=" then goEqualFold a b
  else if op = "!=" then ¬goEqualFold a b
  else if op = ">" then b < a
  else if op = "<" then a < b
  else if op = ">=" then b ≤ a
  else if op = "<=" then a ≤ b
  else false

/-- `compareWithOperator` (database.go:465): `v1` is the WHERE-clause
value, `v2` the record value; the comparison evaluated is
`record_value op condition_value`. -/
def compareWithOperator (v1 v2 : Val) (op : String) : Bool :=
  match v1, v2 with
  | .null, .null => op = "="
  | .null, _ => op = "!="
  | _, .null => op = "!="
  | .int a, .int b => compareInts b a op
  | .int a, .float b => compareFloats b (a : Rat) op
  | .int a, .str s =>
    match goAtoi s with
    | some n => compareInts n a op
    | none =>
      match goParseFloat s with
      | some q => compareFloats q (a : Rat) op
      | none => false
  | .float a, .float b => compareFloats b a op
  | .float a, .int b => compareFloats (b : Rat) a op
  | .float a, .str s =>
    match goParseFloat s with
    | some q => compareFloats q a op
    | none => false
  | .str a, .str b => compareStrings b a op
  | .str a, .int b =>
    match goAtoi a with
    | some n => compareInts b n op
    | none => false
  | .str a, .float b =>
    match goParseFloat a with
    | some q => compareFloats b q op
    | none => false
  | _, _ => false

/-! ### Data model and statements (`pkg/interfaces/types.go`, the file
appearing as `unnamed/part_010`) -/

/-- `interfaces.Column`. -/
structure Column where
  name : String
  type : String
  primaryKey : Bool
  nullable : Bool
  unique : Bool
deriving DecidableEq

/-- `interfaces.Table`: name, schema, and the record slice (the `sqlight`
executor stores rows in a plain slice, in insertion order). -/
structure Table where
  name : String
  columns : List Column
  records : List Rec
deriving DecidableEq

/-- The `Database` struct of `pkg/db/database.go`: live table map,
transaction flag, and the snapshot map (empty when no transaction). -/
structure Database where
  tables : List (String × Table)
  inTransaction : Bool
  snapshot : List (String × Table)
deriving DecidableEq

/-- One WHERE condition: the inner `map[string]interface{}` carrying
`"operator"` and `"value"`, keyed by column name. -/
structure Cond where
  col : String
  op : String
  value : Val
deriving DecidableEq

/-- The statement variants of `interfaces` (`unnamed/part_010`).  There is
no UPDATE variant in that set; the dispatcher's `default` branch rejects
anything else as an unsupported statement type. -/
inductive Stmt where
  | create (tableName : String) (columns : List Column)
  | insert (tableName : String) (columns : List String) (values : List Val)
  | selectSt (tableName : String) (columns : List String) (whereConds : List Cond)
  | drop (tableName : String)
  | describe (tableName : String)
  | delete (tableName : String) (whereConds : List Cond)
  | beginTx
  | commit
  | rollback
deriving DecidableEq

/-! ### Executor (`pkg/db/database.go`) -/

/-- `getTable` (database.go:724): pick the snapshot map while a
transaction is open, then find the table by case-insensitive name. -/
def getTable (d : Database) (tn : String) : Except String (Table × String) :=
  match (if d.inTransaction then d.snapshot else d.tables).find? (fun p => goEqualFold p.1 tn) with
  | some (n, t) => .ok (t, n)
  | none => .error ("table " ++ tn ++ " does not exist")

/-- `getColumnMap` lookup (database.go:750): the Go map sends the
lowercased name of each column to its canonical name, a later column
overwriting an earlier one with the same lowercasing — hence the reverse
search.  `k` is already lowercased by the callers. -/
def columnMapLookup (cols : List Column) (k : String) : Option String :=
  (cols.reverse.find? (fun c => strLower c.name = k)).map (fun c => c.name)

/-- First column whose name equals `actual` exactly (the `colDef` search
loop in `executeInsert`, database.go:293). -/
def getColDef (cols : List Column) (actual : String) : Option Column :=
  cols.find? (fun c => c.name = actual)

/-- `getColumnValue` (database.go:193): coerce a value to the column's
declared type.  INTEGER accepts ints, truncates floats and parses
strings; TEXT stringifies anything (a `nil` becomes `"<nil>"`); every
other declared type passes the value through unchanged. -/
def getColumnValue (colDef : Column) (v : Val) : Except String Val :=
  if colDef.type = "INT" ∨ colDef.type = "INTEGER" then
    match v with
    | .int n => .ok (.int n)
    | .float q => .ok (.int (ratTrunc q))
    | .str s =>
      match goAtoi s with
      | some n => .ok (.int n)
      | none => .error ("invalid syntax: " ++ s)
    | _ => .error "invalid integer value"
  else if colDef.type = "TEXT" then
    .ok (.str (goSprintfV v))
  else
    .ok v

/-- First pass of `executeInsert` (database.go:285): resolve each supplied
column case-insensitively, coerce its value, and build the record map. -/
def buildInsertRecord (tcols : List Column) : List String → List Val → Rec → Except String Rec
  | [], [], acc => .ok acc
  | c :: cs, v :: vs, acc =>
    match columnMapLookup tcols (strLower c) with
    | none => .error ("column " ++ c ++ " does not exist")
    | some actual =>
      match getColDef tcols actual with
      | none => .error ("column " ++ actual ++ " not found in table definition")
      | some colDef =>
        match getColumnValue colDef v with
        | .error e => .error ("invalid value for column " ++ actual ++ ": " ++ e)
        | .ok val => buildInsertRecord tcols cs vs (assocPut acc actual val)
  | _, _, _ => .error "column count does not match value count"

/-- The inner duplicate test of the second pass (database.go:321): a `nil`
stored value is skipped; two strings are compared exactly (the `continue`
sits inside the string/string branch, so a mismatch skips this record);
a string candidate against a non-string stored value falls through to
`compareValues`, as does every non-string candidate. -/
def uniqueConflictVal (v ev : Val) : Bool :=
  match ev with
  | .null => false
  | _ =>
    match v with
    | .str s =>
      match ev with
      | .str es => s = es
      | _ => compareValues v ev
    | _ => compareValues v ev

/-- Second pass of `executeInsert` (database.go:312): per declared column,
the NOT NULL check, then for PRIMARY KEY / UNIQUE columns a scan of the
stored records; the first violation is returned. -/
def checkConstraints (tcols : List Column) (records : List Rec) (rec : Rec) : Option String :=
  match tcols with
  | [] => none
  | col :: rest =>
    if ¬col.nullable ∧ (recGet? rec col.name = none ∨ recGet? rec col.name = some .null) then
      some ("column " ++ col.name ++ " cannot be null")
    else
      match recGet? rec col.name with
      | some v =>
        if (col.primaryKey ∨ col.unique) ∧ v ≠ .null
            ∧ records.any (fun old => uniqueConflictVal v (recGet old col.name)) then
          some ("duplicate value in column " ++ col.name)
        else checkConstraints rest records rec
      | none => checkConstraints rest records rec

/-- Store a table back into the map the statement was working on
(`executeInsert`/`executeDelete` tail, database.go:357): the snapshot map
during a transaction, the live map (followed by a save) otherwise. -/
def updateTables (d : Database) (actual : String) (tbl : Table) : Database :=
  if d.inTransaction then { d with snapshot := assocPut d.snapshot actual tbl }
  else { d with tables := assocPut d.tables actual tbl }

/-- `executeInsert` (database.go:265). -/
def execInsert (d : Database) (tn : String) (cols : List String) (vals : List Val) :
    Database × Option String :=
  match getTable d tn with
  | .error e => (d, some e)
  | .ok (tbl, actual) =>
    if cols.length ≠ vals.length then
      (d, some "column count does not match value count")
    else
      match buildInsertRecord tbl.columns cols vals [] with
      | .error e => (d, some e)
      | .ok rec =>
        match checkConstraints tbl.columns tbl.records rec with
        | some e => (d, some e)
        | none => (updateTables d actual { tbl with records := tbl.records ++ [rec] }, none)

/-- The per-record WHERE loop, written identically inline in
`executeSelect` (database.go:407) and `executeDelete` (database.go:666):
resolve the condition's column case-insensitively (unknown column aborts
the whole statement), treat a `nil` record value as an immediate
non-match for the conjunction, else compare with the operator. -/
def evalWhereRecord (tcols : List Column) (conds : List Cond) (r : Rec) :
    Except String Bool :=
  match conds with
  | [] => .ok true
  | c :: rest =>
    match columnMapLookup tcols (strLower c.col) with
    | none => .error ("column " ++ c.col ++ " does not exist")
    | some actual =>
      match recGet? r actual with
      | none => .ok false
      | some .null => .ok false
      | some rv =>
        if compareWithOperator c.value rv c.op then evalWhereRecord tcols rest r
        else .ok false

/-- The record filter of `executeSelect`: keep matching records, in stored
order; the first evaluation error aborts. -/
def filterRecords (tcols : List Column) (conds : List Cond) :
    List Rec → Except String (List Rec)
  | [] => .ok []
  | r :: rs =>
    match evalWhereRecord tcols conds r with
    | .error e => .error e
    | .ok b =>
      match filterRecords tcols conds rs with
      | .error e => .error e
      | .ok rest => .ok (if b then r :: rest else rest)

/-- The record filter of `executeDelete`: keep the non-matching records. -/
def keepRecords (tcols : List Column) (conds : List Cond) :
    List Rec → Except String (List Rec)
  | [] => .ok []
  | r :: rs =>
    match evalWhereRecord tcols conds r with
    | .error e => .error e
    | .ok b =>
      match keepRecords tcols conds rs with
      | .error e => .error e
      | .ok rest => .ok (if b then rest else r :: rest)

/-- Output column resolution of `executeSelect` (database.go:385): empty
list or a leading `*` selects every declared column, otherwise each name
is resolved case-insensitively. -/
def resolveSelectCols (tcols : List Column) (cols : List String) :
    Except String (List String) :=
  if cols.length = 0 ∨ cols.headD "" = "*" then
    .ok (tcols.map (fun c => c.name))
  else
    cols.foldr
      (fun c acc =>
        match columnMapLookup tcols (strLower c) with
        | none => .error ("column " ++ c ++ " does not exist")
        | some actual =>
          match acc with
          | .error e => .error e
          | .ok rest => .ok (actual :: rest))
      (.ok [])

/-- The record projection of `executeSelect` (database.go:446): one entry
per output column, read with the zero-value map access. -/
def projectRecord (outCols : List String) (r : Rec) : Rec :=
  outCols.map (fun c => (c, recGet r c))

/-- `executeSelect` (database.go:374): read-only; returns the output
column list and the projected matching records. -/
def execSelectQ (d : Database) (tn : String) (cols : List String) (conds : List Cond) :
    Except String (List String × List Rec) :=
  match getTable d tn with
  | .error e => .error e
  | .ok (tbl, _) =>
    match resolveSelectCols tbl.columns cols with
    | .error e => .error e
    | .ok outCols =>
      match filterRecords tbl.columns conds tbl.records with
      | .error e => .error e
      | .ok recs => .ok (outCols, recs.map (projectRecord outCols))

/-- `executeDelete` (database.go:647): without a WHERE clause every record
is removed; otherwise the non-matching records are kept. -/
def execDelete (d : Database) (tn : String) (conds : List Cond) :
    Database × Option String :=
  match getTable d tn with
  | .error e => (d, some e)
  | .ok (tbl, actual) =>
    if conds.length = 0 then
      (updateTables d actual { tbl with records := [] }, none)
    else
      match keepRecords tbl.columns conds tbl.records with
      | .error e => (d, some e)
      | .ok kept => (updateTables d actual { tbl with records := kept }, none)

/-- `executeDrop` (database.go:624): resolve the table case-insensitively,
then delete it from the snapshot map (in a transaction) or the live map. -/
def execDrop (d : Database) (tn : String) : Database × Option String :=
  match getTable d tn with
  | .error e => (d, some e)
  | .ok (_, actual) =>
    if d.inTransaction then
      ({ d with snapshot := d.snapshot.filter (fun p => p.1 ≠ actual) }, none)
    else
      ({ d with tables := d.tables.filter (fun p => p.1 ≠ actual) }, none)

/-- `executeCreate` (database.go:153).  The existence check is an exact
(case-sensitive) map access on the live table map, and — as in the
source, contradicting its own comment — both branches of the final `if`
write the new table into the LIVE map `d.tables`, even inside an open
transaction. -/
def execCreate (d : Database) (tn : String) (cols : List Column) :
    Database × Option String :=
  match d.tables.lookup tn with
  | some _ => (d, some ("table " ++ tn ++ " already exists"))
  | none =>
    if 1 < (cols.filter (fun c => c.primaryKey)).length then
      (d, some "table can only have one PRIMARY KEY")
    else
      ({ d with tables := assocPut d.tables tn ⟨tn, cols, []⟩ }, none)

/-- `executeBeginTransaction` (database.go:74): refuse a nested BEGIN,
otherwise snapshot all tables (a deep copy in Go; a value copy here). -/
def execBegin (d : Database) : Database × Option String :=
  if d.inTransaction then (d, some "transaction already in progress")
  else ({ d with snapshot := d.tables, inTransaction := true }, none)

/-- `executeCommit` (database.go:111): install the snapshot map as the
live table map, clear it, leave the transaction, save. -/
def execCommit (d : Database) : Database × Option String :=
  if ¬d.inTransaction then (d, some "no transaction in progress")
  else ({ d with tables := d.snapshot, snapshot := [], inTransaction := false }, none)

/-- `executeRollback` (database.go:134): discard the snapshot and leave
the transaction; the live table map is not touched. -/
def execRollback (d : Database) : Database × Option String :=
  if ¬d.inTransaction then (d, some "no transaction in progress")
  else ({ d with snapshot := [], inTransaction := false }, none)

/-- `Execute` (database.go:42): route one parsed statement.  The
`interfaces` statement set has no UPDATE variant, so no branch here can
execute one (Go's `default` branch reports an unsupported statement
type). -/
def execStmt (d : Database) (s : Stmt) : Database × Option String :=
  match s with
  | .beginTx => execBegin d
  | .commit => execCommit d
  | .rollback => execRollback d
  | .create tn cols => execCreate d tn cols
  | .insert tn cols vals => execInsert d tn cols vals
  | .selectSt tn cols conds =>
    (d, match execSelectQ d tn cols conds with
        | .ok _ => none
        | .error e => some e)
  | .drop tn => execDrop d tn
  | .describe tn =>
    (d, match getTable d tn with
        | .ok _ => none
        | .error e => some e)
  | .delete tn conds => execDelete d tn conds

/-- Run a statement sequence, continuing after per-statement errors (as
the REPL does). -/
def execStmts (d : Database) (ss : List Stmt) : Database :=
  ss.foldl (fun d s => (execStmt d s).1) d

/-! ### Supporting lemmas about the executor -/

theorem updateTables_tables_of_inTx (d : Database) (a : String) (t : Table)
    (h : d.inTransaction = true) :
    (updateTables d a t).tables = d.tables ∧ (updateTables d a t).inTransaction = true := by
  simp [updateTables, h]

/-- Statements that, inside a transaction, only touch the snapshot map:
INSERT, DELETE and DROP. -/
def isTxSafeMutation : Stmt → Bool
  | .insert _ _ _ => true
  | .delete _ _ => true
  | .drop _ => true
  | _ => false

theorem execStmt_inTx_preserves_tables (d : Database) (s : Stmt)
    (hTx : d.inTransaction = true) (hs : isTxSafeMutation s = true) :
    (execStmt d s).1.tables = d.tables ∧ (execStmt d s).1.inTransaction = true := by
  cases s with
  | insert tn cols vals =>
    simp only [execStmt, execInsert]
    split
    · exact ⟨rfl, hTx⟩
    · split
      · exact ⟨rfl, hTx⟩
      · split
        · exact ⟨rfl, hTx⟩
        · split
          · exact ⟨rfl, hTx⟩
          · exact updateTables_tables_of_inTx d _ _ hTx
  | delete tn conds =>
    simp only [execStmt, execDelete]
    split
    · exact ⟨rfl, hTx⟩
    · split
      · exact updateTables_tables_of_inTx d _ _ hTx
      · split
        · exact ⟨rfl, hTx⟩
        · exact updateTables_tables_of_inTx d _ _ hTx
  | drop tn =>
    simp only [execStmt, execDrop]
    split
    · exact ⟨rfl, hTx⟩
    · split
      · next h => simp_all
      · next h => simp_all [hTx]
  | _ => simp [isTxSafeMutation] at hs

theorem execStmts_inTx_preserves_tables (d : Database) (ss : List Stmt)
    (hTx : d.inTransaction = true) (hss : ∀ s ∈ ss, isTxSafeMutation s = true) :
    (execStmts d ss).tables = d.tables ∧ (execStmts d ss).inTransaction = true := by
  induction ss generalizing d with
  | nil => exact ⟨rfl, hTx⟩
  | cons s rest ih =>
    have hstep := execStmt_inTx_preserves_tables d s hTx (hss s (by simp))
    have := ih (execStmt d s).1 hstep.2 (fun x hx => hss x (by simp [hx]))
    simpa [execStmts, this.1, hstep.1] using ⟨this.1.trans hstep.1, this.2⟩

theorem execCommit_installs_snapshot (d : Database) (h : d.inTransaction = true) :
    execCommit d = ({ d with tables := d.snapshot, snapshot := [], inTransaction := false }, none) := by
  simp [execCommit, h]

/-! ### Concrete fixtures used by closed theorems and witnesses -/

/-- `id INTEGER PRIMARY KEY`. -/
def colIdPK : Column := ⟨"id", "INTEGER", true, true, false⟩

/-- `id INTEGER` (no constraints). -/
def colIdPlain : Column := ⟨"id", "INTEGER", false, true, false⟩

/-- `name TEXT NOT NULL`. -/
def colNameNN : Column := ⟨"name", "TEXT", false, false, false⟩

/-- The empty database. -/
def dbEmpty : Database := ⟨[], false, []⟩

/-- A database holding one empty table `t` with a plain integer id. -/
def dbT : Database := ⟨[("t", ⟨"t", [colIdPlain], []⟩)], false, []⟩

/-- A database holding one empty table `t` with `id INTEGER PRIMARY KEY`. -/
def dbTPK : Database := ⟨[("t", ⟨"t", [colIdPK], []⟩)], false, []⟩

/-! ### C10 -/

/-- C10: while a transaction is open, every INSERT, DELETE and DROP
statement leaves the live table map `tables` unchanged (mutating only the
snapshot map, per `getTable`/`updateTables`), the transaction stays open,
and a subsequent COMMIT installs the snapshot map as the live table map
(with no error) before persisting. -/
theorem C10_transaction_mutates_snapshot_only (d : Database) (ss : List Stmt)
    (hTx : d.inTransaction = true)
    (hss : ∀ s ∈ ss, isTxSafeMutation s = true) :
    (execStmts d ss).tables = d.tables ∧
    (execStmts d ss).inTransaction = true ∧
    (execCommit (execStmts d ss)).1.tables = (execStmts d ss).snapshot ∧
    (execCommit (execStmts d ss)).2 = none := by
  obtain ⟨h1, h2⟩ := execStmts_inTx_preserves_tables d ss hTx hss
  refine ⟨h1, h2, ?_, ?_⟩ <;> simp [execCommit_installs_snapshot _ h2]

/-- Witness for C10 at a concrete open transaction running an INSERT, a
DELETE and a DROP: the live tables are untouched and COMMIT installs the
snapshot. -/
theorem C10_witness :
    (let d : Database := ⟨[("t", ⟨"t", [colIdPlain], []⟩)], true, [("t", ⟨"t", [colIdPlain], []⟩)]⟩
     let ss : List Stmt := [.insert "t" ["id"] [.int 7], .delete "t" [⟨"id", "=", .int 7⟩], .drop "t"]
     (execStmts d ss).tables = d.tables ∧
     (execStmts d ss).inTransaction = true ∧
     (execCommit (execStmts d ss)).1.tables = (execStmts d ss).snapshot ∧
     (execCommit (execStmts d ss)).2 = none) :=
  C10_transaction_mutates_snapshot_only _ _ rfl (by decide)

/-! ### C1 -/

/-- C1: the transaction-atomicity property fails on the code.  Starting
from the empty database, the sequence `BEGIN; CREATE TABLE t (id
INTEGER); ROLLBACK` ends with table `t` present in the live table map —
`executeCreate` writes to the live map even inside a transaction
(contradicting its own comment), and `executeRollback` only discards the
snapshot — so the table set after ROLLBACK differs from the set before
BEGIN.  (INSERT/DELETE/DROP inside a transaction do satisfy atomicity;
see the C10 theorem.) -/
theorem C1_create_escapes_rollback :
    execStmts dbEmpty [.beginTx, .create "t" [colIdPlain], .rollback]
      = ⟨[("t", ⟨"t", [colIdPlain], []⟩)], false, []⟩ ∧
    (execStmts dbEmpty [.beginTx, .create "t" [colIdPlain], .rollback]).tables ≠ dbEmpty.tables := by
  constructor
  · rfl
  · decide

/-! ### C8 -/

/-- Counterexample to C8: with table `users` present, `CREATE TABLE
Users` (same name up to case) does NOT fail — the existence check
`d.tables[stmt.TableName]` is an exact map access — and a second table is
added to the map. -/
theorem C8_case_variant_create_succeeds :
    (execCreate ⟨[("users", ⟨"users", [colIdPK], []⟩)], false, []⟩ "Users" [colIdPK]).2 = none ∧
    (execCreate ⟨[("users", ⟨"users", [colIdPK], []⟩)], false, []⟩ "Users" [colIdPK]).1.tables.length = 2 := by
  decide

/-- C8 amended: CREATE TABLE fails with a table-exists error exactly on an
exact (case-sensitive) name match, leaving the database unchanged; when no
exact match exists (even if a case variant does) and at most one PRIMARY
KEY column is declared, the statement succeeds and stores the new table. -/
theorem C8_create_exact_match_check (d : Database) (tn : String) (cols : List Column) :
    (∀ tbl, d.tables.lookup tn = some tbl →
      execCreate d tn cols = (d, some ("table " ++ tn ++ " already exists"))) ∧
    (d.tables.lookup tn = none → (cols.filter (fun c => c.primaryKey)).length ≤ 1 →
      execCreate d tn cols = ({ d with tables := assocPut d.tables tn ⟨tn, cols, []⟩ }, none)) := by
  constructor
  · intro tbl h
    simp [execCreate, h]
  · intro h hpk
    simp [execCreate, h, Nat.not_lt.mpr hpk]

/-- Witness for C8 amended, at the `users`/`Users` input: the exact lookup
misses, so the case-variant create succeeds. -/
theorem C8_witness :
    (([("users", (⟨"users", [colIdPK], []⟩ : Table))].lookup "Users" = (none : Option Table)) ∧
     execCreate ⟨[("users", ⟨"users", [colIdPK], []⟩)], false, []⟩ "Users" [colIdPK]
       = (⟨[("users", ⟨"users", [colIdPK], []⟩), ("Users", ⟨"Users", [colIdPK], []⟩)], false, []⟩, none)) := by
  refine ⟨by decide, ?_⟩
  have := (C8_create_exact_match_check ⟨[("users", ⟨"users", [colIdPK], []⟩)], false, []⟩ "Users" [colIdPK]).2
    (by decide) (by decide)
  simpa [assocPut] using this

/-! ### C3 -/

theorem checkConstraints_none_notnull (tcols : List Column) (records : List Rec) (rec : Rec)
    (h : checkConstraints tcols records rec = none) :
    ∀ col ∈ tcols, col.nullable = false →
      ¬(recGet? rec col.name = none ∨ recGet? rec col.name = some .null) := by
  induction tcols with
  | nil => intro col hc; simp at hc
  | cons hd rest ih =>
    intro col hc hnn
    unfold checkConstraints at h
    split at h
    · exact absurd h (by simp)
    · next hcond =>
      rcases List.mem_cons.mp hc with hEq | hMem
      · subst hEq
        intro habs
        exact hcond ⟨by simp [hnn], habs⟩
      · split at h
        · split at h
          · exact absurd h (by simp)
          · exact ih h col hMem hnn
        · exact ih h col hMem hnn

theorem checkConstraints_none_unique (tcols : List Column) (records : List Rec) (rec : Rec)
    (h : checkConstraints tcols records rec = none) :
    ∀ col ∈ tcols, (col.primaryKey ∨ col.unique) → ∀ v, recGet? rec col.name = some v →
      v ≠ .null → ∀ old ∈ records, uniqueConflictVal v (recGet old col.name) = false := by
  induction tcols with
  | nil => intro col hc; simp at hc
  | cons hd rest ih =>
    intro col hc hflags v hv hvnull old hold
    unfold checkConstraints at h
    split at h
    · exact absurd h (by simp)
    · rcases List.mem_cons.mp hc with hEq | hMem
      · subst hEq
        rw [hv] at h
        split at h
        · next v2 heq =>
          injection heq with heq2
          subst heq2
          split at h
          · exact absurd h (by simp)
          · next hcond =>
            by_contra habs
            exact hcond ⟨hflags, hvnull, List.any_eq_true.mpr ⟨old, hold, by simpa using habs⟩⟩
        · next heq => exact absurd heq (by simp)
      · split at h
        · split at h
          · exact absurd h (by simp)
          · exact ih h col hMem hflags v hv hvnull old hold
        · exact ih h col hMem hflags v hv hvnull old hold

/-- If every record the first pass could build is rejected by the
constraint pass, the INSERT errors and the database is unchanged. -/
theorem execInsert_fails_of_check (d : Database) (tn : String) (cols : List String)
    (vals : List Val) (tbl : Table) (actual : String)
    (hget : getTable d tn = .ok (tbl, actual))
    (hchk : ∀ rec, buildInsertRecord tbl.columns cols vals [] = .ok rec →
      checkConstraints tbl.columns tbl.records rec ≠ none) :
    (execInsert d tn cols vals).2.isSome ∧ (execInsert d tn cols vals).1 = d := by
  unfold execInsert
  simp only [hget]
  split
  · exact ⟨rfl, rfl⟩
  · cases hb : buildInsertRecord tbl.columns cols vals [] with
    | error e => simp [hb]
    | ok rec =>
      simp only [hb]
      cases hc : checkConstraints tbl.columns tbl.records rec with
      | none => exact absurd hc (hchk rec hb)
      | some e => simp [hc]

/-- Counterexample to C3: inserting an explicit Null into the NOT NULL
TEXT column `name` SUCCEEDS — `getColumnValue` stringifies the nil to
`"<nil>"`, which then passes the null check — and the row is stored. -/
theorem C3_null_text_insert_succeeds :
    execInsert ⟨[("t", ⟨"t", [colNameNN], []⟩)], false, []⟩ "t" ["name"] [.null]
      = (⟨[("t", ⟨"t", [colNameNN], [[("name", .str "<nil>")]]⟩)], false, []⟩, none) := by
  decide

/-- C3 amended: an INSERT whose candidate row, after the first-pass type
coercion, lacks the NOT NULL column or holds Null there, errors and
leaves the database unchanged.  (A supplied Null reaches the null check
unchanged only for non-INTEGER, non-TEXT column types: for INTEGER the
coercion itself errors, and for TEXT the Null is coerced to the string
`"<nil>"`, so the insert can succeed — see
the counterexample.) -/
theorem C3_not_null_amended (d : Database) (tn : String) (cols : List String)
    (vals : List Val) (tbl : Table) (actual : String) (col : Column)
    (hget : getTable d tn = .ok (tbl, actual))
    (hcol : col ∈ tbl.columns) (hnn : col.nullable = false)
    (hnull : ∀ rec, buildInsertRecord tbl.columns cols vals [] = .ok rec →
      recGet? rec col.name = none ∨ recGet? rec col.name = some .null) :
    (execInsert d tn cols vals).2.isSome ∧ (execInsert d tn cols vals).1 = d := by
  refine execInsert_fails_of_check d tn cols vals tbl actual hget ?_
  intro rec hb hc
  exact checkConstraints_none_notnull tbl.columns tbl.records rec hc col hcol hnn (hnull rec hb)

/-- Witness for C3 amended: omitting the NOT NULL column `name` makes the
insert fail and leaves the database unchanged. -/
theorem C3_witness :
    (execInsert ⟨[("t", ⟨"t", [colIdPlain, colNameNN], []⟩)], false, []⟩ "t" ["id"] [.int 1]).2.isSome ∧
    (execInsert ⟨[("t", ⟨"t", [colIdPlain, colNameNN], []⟩)], false, []⟩ "t" ["id"] [.int 1]).1
      = ⟨[("t", ⟨"t", [colIdPlain, colNameNN], []⟩)], false, []⟩ :=
  C3_not_null_amended _ "t" ["id"] [.int 1] ⟨"t", [colIdPlain, colNameNN], []⟩ "t" colNameNN
    (by decide) (by decide) (by decide)
    (by
      intro rec h
      have hb : buildInsertRecord [colIdPlain, colNameNN] ["id"] [Val.int 1] ([] : Rec)
          = Except.ok ([("id", Val.int 1)] : Rec) := by decide
      rw [show (⟨"t", [colIdPlain, colNameNN], []⟩ : Table).columns = [colIdPlain, colNameNN] from rfl, hb] at h
      cases h
      left
      decide)

/-! ### C2 -/

theorem buildInsertRecord_ok_length (tcols : List Column) :
    ∀ (cs : List String) (vs : List Val) (acc rec : Rec),
      buildInsertRecord tcols cs vs acc = .ok rec → cs.length = vs.length := by
  intro cs
  induction cs with
  | nil => intro vs acc rec h; cases vs with
    | nil => rfl
    | cons v vt => simp [buildInsertRecord] at h
  | cons c ct ih =>
    intro vs acc rec h
    cases vs with
    | nil => simp [buildInsertRecord] at h
    | cons v vt =>
      unfold buildInsertRecord at h
      split at h
      · simp at h
      · split at h
        · simp at h
        · split at h
          · simp at h
          · simpa using ih vt _ rec h

theorem find?_assocPut {α : Type} (p : String × α → Bool)
    (hp : ∀ k (v w : α), p (k, v) = p (k, w)) (a : String) (t' : α) :
    ∀ (m : List (String × α)) (t : α),
      m.find? p = some (a, t) → (assocPut m a t').find? p = some (a, t') := by
  intro m
  induction m with
  | nil => intro t h; simp [List.find?] at h
  | cons hd rest ih =>
    intro t h
    obtain ⟨k, v⟩ := hd
    rw [List.find?_cons] at h
    by_cases hq : p (k, v)
    · rw [hq] at h
      have h' : some (k, v) = some (a, t) := h
      injection h' with h2
      have hka : k = a := congrArg Prod.fst h2
      subst hka
      simp only [assocPut, eq_self_iff_true, if_true]
      have hq' : p (k, t') = true := (hp k t' v).trans hq
      simp [List.find?_cons, hq']
    · have hqf : p (k, v) = false := by simpa using hq
      rw [hqf] at h
      have h' : List.find? p rest = some (a, t) := h
      have hqa : p (a, t) = true := List.find?_some h'
      have hne : k ≠ a := by
        intro hEq
        subst hEq
        exact hq ((hp k v t).trans hqa)
      simp only [assocPut, if_neg hne]
      rw [List.find?_cons, hqf]
      exact ih t h'

/-- After a mutating statement writes table `tbl'` back under the same
actual name, `getTable` re-resolves the same name to the new table. -/
theorem getTable_after_update (d : Database) (tn actual : String) (tbl tbl' : Table)
    (h : getTable d tn = .ok (tbl, actual)) :
    getTable (updateTables d actual tbl') tn = .ok (tbl', actual) := by
  unfold getTable at h
  by_cases htx : d.inTransaction = true
  · rw [if_pos htx] at h
    cases hf : d.snapshot.find? (fun p => goEqualFold p.1 tn) with
    | none => rw [hf] at h; exact absurd h (by simp)
    | some pr =>
      obtain ⟨n, t⟩ := pr
      rw [hf] at h
      simp only [Except.ok.injEq, Prod.mk.injEq] at h
      obtain ⟨h1, h2⟩ := h
      subst h1
      subst h2
      have key := find?_assocPut (fun pr => goEqualFold pr.1 tn) (fun _ _ _ => rfl)
        n tbl' d.snapshot t hf
      have hu : updateTables d n tbl' = { d with snapshot := assocPut d.snapshot n tbl' } := by
        simp [updateTables, htx]
      rw [hu]
      simp [getTable, htx, key]
  · rw [if_neg htx] at h
    cases hf : d.tables.find? (fun p => goEqualFold p.1 tn) with
    | none => rw [hf] at h; exact absurd h (by simp)
    | some pr =>
      obtain ⟨n, t⟩ := pr
      rw [hf] at h
      simp only [Except.ok.injEq, Prod.mk.injEq] at h
      obtain ⟨h1, h2⟩ := h
      subst h1
      subst h2
      have key := find?_assocPut (fun pr => goEqualFold pr.1 tn) (fun _ _ _ => rfl)
        n tbl' d.tables t hf
      have hu : updateTables d n tbl' = { d with tables := assocPut d.tables n tbl' } := by
        simp [updateTables, htx]
      rw [hu]
      simp [getTable, htx, key]

/-- Shape of a successful INSERT: the target table gains exactly the
record built by the first pass, which passed the constraint pass. -/
theorem execInsert_ok_shape (d : Database) (tn : String) (cols : List String)
    (vals : List Val) (d' : Database) (tbl : Table) (actual : String)
    (hget : getTable d tn = .ok (tbl, actual))
    (h : execInsert d tn cols vals = (d', none)) :
    ∃ rec, buildInsertRecord tbl.columns cols vals [] = .ok rec ∧
      checkConstraints tbl.columns tbl.records rec = none ∧
      d' = updateTables d actual { tbl with records := tbl.records ++ [rec] } := by
  unfold execInsert at h
  simp only [hget] at h
  split at h
  · simp at h
  · cases hb : buildInsertRecord tbl.columns cols vals [] with
    | error e => simp only [hb] at h; simp at h
    | ok rec =>
      simp only [hb] at h
      cases hc : checkConstraints tbl.columns tbl.records rec with
      | some e => simp only [hc] at h; simp at h
      | none =>
        simp only [hc] at h
        exact ⟨rec, rfl, hc, (congrArg Prod.fst h).symm⟩

/-- C2: with a PRIMARY KEY or UNIQUE column, after a first INSERT has been
stored, a second INSERT whose coerced value in that column equals the
stored one (string equality exact when both are strings; numeric equality
after coercion via `compareValues` otherwise) returns an error and leaves
the database — in particular the table's record count — unchanged, so
both rows are never stored. -/
theorem C2_second_insert_with_equal_unique_value_fails
    (d d1 : Database) (tn : String) (cols1 cols2 : List String) (vals1 vals2 : List Val)
    (tbl : Table) (actual : String) (rec1 rec2 : Rec) (col : Column) (v2 : Val)
    (hget : getTable d tn = .ok (tbl, actual))
    (hfirst : execInsert d tn cols1 vals1 = (d1, none))
    (hb1 : buildInsertRecord tbl.columns cols1 vals1 [] = .ok rec1)
    (hcol : col ∈ tbl.columns)
    (hflags : col.primaryKey = true ∨ col.unique = true)
    (hb2 : buildInsertRecord tbl.columns cols2 vals2 [] = .ok rec2)
    (hv2 : recGet? rec2 col.name = some v2) (hv2n : v2 ≠ .null)
    (hconf : uniqueConflictVal v2 (recGet rec1 col.name) = true) :
    (execInsert d1 tn cols2 vals2).2.isSome ∧ (execInsert d1 tn cols2 vals2).1 = d1 := by
  obtain ⟨rec1', hb1', hc1, hd1⟩ := execInsert_ok_shape d tn cols1 vals1 d1 tbl actual hget hfirst
  rw [hb1] at hb1'
  injection hb1' with hrec1
  subst hrec1
  have hget1 : getTable d1 tn = .ok ({ tbl with records := tbl.records ++ [rec1] }, actual) := by
    rw [hd1]
    exact getTable_after_update d tn actual tbl _ hget
  refine execInsert_fails_of_check d1 tn cols2 vals2 _ actual hget1 ?_
  intro rec hb hc
  have hb' : buildInsertRecord tbl.columns cols2 vals2 [] = .ok rec := hb
  rw [hb2] at hb'
  injection hb' with hrec
  subst hrec
  have hc' : checkConstraints tbl.columns (tbl.records ++ [rec1]) rec2 = none := hc
  have hnone := checkConstraints_none_unique tbl.columns (tbl.records ++ [rec1]) rec2 hc'
    col hcol hflags v2 hv2 hv2n rec1 (by simp)
  rw [hconf] at hnone
  exact absurd hnone (by simp)

/-- Witness for C2 at a concrete duplicate primary key: after `INSERT
(id=1)` into `t (id INTEGER PRIMARY KEY)`, a second `INSERT (id=1)` fails
and the database is unchanged. -/
theorem C2_witness :
    (execInsert ⟨[("t", ⟨"t", [colIdPK], [[("id", .int 1)]]⟩)], false, []⟩ "t" ["id"] [.int 1]).2.isSome ∧
    (execInsert ⟨[("t", ⟨"t", [colIdPK], [[("id", .int 1)]]⟩)], false, []⟩ "t" ["id"] [.int 1]).1
      = ⟨[("t", ⟨"t", [colIdPK], [[("id", .int 1)]]⟩)], false, []⟩ :=
  C2_second_insert_with_equal_unique_value_fails
    ⟨[("t", ⟨"t", [colIdPK], []⟩)], false, []⟩
    ⟨[("t", ⟨"t", [colIdPK], [[("id", .int 1)]]⟩)], false, []⟩
    "t" ["id"] ["id"] [.int 1] [.int 1]
    ⟨"t", [colIdPK], []⟩ "t" [("id", .int 1)] [("id", .int 1)] colIdPK (.int 1)
    (by decide) (by decide) (by decide) (by decide) (Or.inl (by decide))
    (by decide) (by decide) (by decide) (by decide)

/-! ### C9 -/

theorem evalWhereRecord_cons (tcols : List Column) (c : Cond) (rest : List Cond)
    (r : Rec) (actual : String)
    (ha : columnMapLookup tcols (strLower c.col) = some actual) :
    evalWhereRecord tcols (c :: rest) r =
      match recGet? r actual with
      | none => .ok false
      | some .null => .ok false
      | some rv =>
        if compareWithOperator c.value rv c.op then evalWhereRecord tcols rest r
        else .ok false := by
  conv_lhs => unfold evalWhereRecord
  rw [ha]

theorem evalWhereRecord_ok (tcols : List Column) (conds : List Cond) (r : Rec)
    (hres : ∀ c ∈ conds, (columnMapLookup tcols (strLower c.col)).isSome) :
    ∃ b, evalWhereRecord tcols conds r = .ok b := by
  induction conds with
  | nil => exact ⟨true, rfl⟩
  | cons c rest ih =>
    obtain ⟨actual, ha⟩ := Option.isSome_iff_exists.mp (hres c (by simp))
    rw [evalWhereRecord_cons tcols c rest r actual ha]
    cases hr : recGet? r actual with
    | none => exact ⟨false, rfl⟩
    | some rv =>
      cases rv with
      | null => exact ⟨false, rfl⟩
      | int n =>
        by_cases hcmp : compareWithOperator c.value (.int n) c.op
        · simpa [hcmp] using ih (fun x hx => hres x (by simp [hx]))
        · exact ⟨false, by simp [hcmp]⟩
      | float q =>
        by_cases hcmp : compareWithOperator c.value (.float q) c.op
        · simpa [hcmp] using ih (fun x hx => hres x (by simp [hx]))
        · exact ⟨false, by simp [hcmp]⟩
      | str ss =>
        by_cases hcmp : compareWithOperator c.value (.str ss) c.op
        · simpa [hcmp] using ih (fun x hx => hres x (by simp [hx]))
        · exact ⟨false, by simp [hcmp]⟩
      | bool b =>
        by_cases hcmp : compareWithOperator c.value (.bool b) c.op
        · simpa [hcmp] using ih (fun x hx => hres x (by simp [hx]))
        · exact ⟨false, by simp [hcmp]⟩

theorem evalWhereRecord_false_of_null (tcols : List Column) (conds : List Cond) (r : Rec)
    (w : Cond) (cc : String)
    (hres : ∀ c ∈ conds, (columnMapLookup tcols (strLower c.col)).isSome)
    (hw : w ∈ conds)
    (hcc : columnMapLookup tcols (strLower w.col) = some cc)
    (hnull : recGet r cc = .null) :
    evalWhereRecord tcols conds r = .ok false := by
  induction conds with
  | nil => simp at hw
  | cons c rest ih =>
    obtain ⟨actual, ha⟩ := Option.isSome_iff_exists.mp (hres c (by simp))
    rw [evalWhereRecord_cons tcols c rest r actual ha]
    rcases List.mem_cons.mp hw with hEq | hMem
    · subst hEq
      rw [hcc] at ha
      injection ha with ha
      subst ha
      cases hr : recGet? r cc with
      | none => simp [hr]
      | some rv =>
        have hrv : rv = .null := by
          have hcopy := hnull
          rw [recGet, hr] at hcopy
          simpa using hcopy
        subst hrv
        simp [hr]
    · cases hr : recGet? r actual with
      | none => rfl
      | some rv =>
        have ihr := ih (fun x hx => hres x (by simp [hx])) hMem
        cases rv with
        | null => rfl
        | int n => by_cases hcmp : compareWithOperator c.value (.int n) c.op <;> simp [hcmp, ihr]
        | float q => by_cases hcmp : compareWithOperator c.value (.float q) c.op <;> simp [hcmp, ihr]
        | str ss => by_cases hcmp : compareWithOperator c.value (.str ss) c.op <;> simp [hcmp, ihr]
        | bool b => by_cases hcmp : compareWithOperator c.value (.bool b) c.op <;> simp [hcmp, ihr]

theorem filterRecords_mem (tcols : List Column) (conds : List Cond)
    (hres : ∀ c ∈ conds, (columnMapLookup tcols (strLower c.col)).isSome) :
    ∀ records, ∃ taken, filterRecords tcols conds records = .ok taken ∧
      ∀ x, x ∈ taken ↔ x ∈ records ∧ evalWhereRecord tcols conds x = .ok true := by
  intro records
  induction records with
  | nil => exact ⟨[], rfl, by simp⟩
  | cons r rs ih =>
    obtain ⟨b, hb⟩ := evalWhereRecord_ok tcols conds r hres
    obtain ⟨rest, hrest, hmem⟩ := ih
    unfold filterRecords
    rw [hb, hrest]
    cases b with
    | true =>
      refine ⟨r :: rest, by simp, ?_⟩
      intro x
      constructor
      · intro hx
        rcases List.mem_cons.mp hx with hEq | hMem
        · subst hEq; exact ⟨by simp, hb⟩
        · exact ⟨by simp [(hmem x).mp hMem], ((hmem x).mp hMem).2⟩
      · intro ⟨hx, hev⟩
        rcases List.mem_cons.mp hx with hEq | hMem
        · subst hEq; simp
        · simp [(hmem x).mpr ⟨hMem, hev⟩]
    | false =>
      refine ⟨rest, by simp, ?_⟩
      intro x
      constructor
      · intro hx
        exact ⟨by simp [(hmem x).mp hx], ((hmem x).mp hx).2⟩
      · intro ⟨hx, hev⟩
        rcases List.mem_cons.mp hx with hEq | hMem
        · subst hEq; rw [hev] at hb; exact absurd (Except.ok.inj hb) (by simp)
        · exact (hmem x).mpr ⟨hMem, hev⟩

theorem keepRecords_mem (tcols : List Column) (conds : List Cond)
    (hres : ∀ c ∈ conds, (columnMapLookup tcols (strLower c.col)).isSome) :
    ∀ records, ∃ kept, keepRecords tcols conds records = .ok kept ∧
      ∀ x, x ∈ kept ↔ x ∈ records ∧ evalWhereRecord tcols conds x = .ok false := by
  intro records
  induction records with
  | nil => exact ⟨[], rfl, by simp⟩
  | cons r rs ih =>
    obtain ⟨b, hb⟩ := evalWhereRecord_ok tcols conds r hres
    obtain ⟨rest, hrest, hmem⟩ := ih
    unfold keepRecords
    rw [hb, hrest]
    cases b with
    | false =>
      refine ⟨r :: rest, by simp, ?_⟩
      intro x
      constructor
      · intro hx
        rcases List.mem_cons.mp hx with hEq | hMem
        · subst hEq; exact ⟨by simp, hb⟩
        · exact ⟨by simp [(hmem x).mp hMem], ((hmem x).mp hMem).2⟩
      · intro ⟨hx, hev⟩
        rcases List.mem_cons.mp hx with hEq | hMem
        · subst hEq; simp
        · simp [(hmem x).mpr ⟨hMem, hev⟩]
    | true =>
      refine ⟨rest, by simp, ?_⟩
      intro x
      constructor
      · intro hx
        exact ⟨by simp [(hmem x).mp hx], ((hmem x).mp hx).2⟩
      · intro ⟨hx, hev⟩
        rcases List.mem_cons.mp hx with hEq | hMem
        · subst hEq; rw [hev] at hb; exact absurd (Except.ok.inj hb) (by simp)
        · exact (hmem x).mpr ⟨hMem, hev⟩

/-- C9: a row holding Null (or nothing) in a column referenced by any
WHERE condition never matches the AND-conjunction — for every operator,
`!=` included — so SELECT never returns it and DELETE never removes it.
(The select filter and delete keep-list are exactly the stages used by
`execSelectQ` and `execDelete`.) -/
theorem C9_null_never_matches
    (d : Database) (tn : String) (tbl : Table) (actual : String)
    (conds : List Cond) (r : Rec) (w : Cond) (cc : String)
    (hget : getTable d tn = .ok (tbl, actual))
    (hres : ∀ c ∈ conds, (columnMapLookup tbl.columns (strLower c.col)).isSome)
    (hw : w ∈ conds)
    (hcc : columnMapLookup tbl.columns (strLower w.col) = some cc)
    (hr : r ∈ tbl.records)
    (hnull : recGet r cc = .null) :
    evalWhereRecord tbl.columns conds r = .ok false ∧
    (∃ taken, filterRecords tbl.columns conds tbl.records = .ok taken ∧ r ∉ taken ∧
      execSelectQ d tn ["*"] conds
        = .ok (tbl.columns.map (fun c => c.name),
               taken.map (projectRecord (tbl.columns.map (fun c => c.name))))) ∧
    (∃ kept, keepRecords tbl.columns conds tbl.records = .ok kept ∧ r ∈ kept ∧
      execDelete d tn conds = (updateTables d actual { tbl with records := kept }, none)) := by
  have hfalse := evalWhereRecord_false_of_null tbl.columns conds r w cc hres hw hcc hnull
  obtain ⟨taken, htaken, hmemT⟩ := filterRecords_mem tbl.columns conds hres tbl.records
  obtain ⟨kept, hkept, hmemK⟩ := keepRecords_mem tbl.columns conds hres tbl.records
  refine ⟨hfalse, ⟨taken, htaken, ?_, ?_⟩, ⟨kept, hkept, ?_, ?_⟩⟩
  · intro habs
    have := ((hmemT r).mp habs).2
    rw [hfalse] at this
    exact absurd (Except.ok.inj this) (by simp)
  · unfold execSelectQ
    simp only [hget]
    have hcols : resolveSelectCols tbl.columns ["*"] = .ok (tbl.columns.map (fun c => c.name)) := by
      simp [resolveSelectCols]
    rw [hcols, htaken]
  · exact (hmemK r).mpr ⟨hr, hfalse⟩
  · unfold execDelete
    simp only [hget]
    have hne : conds.length ≠ 0 := by
      cases conds with
      | nil => simp at hw
      | cons a b => simp
    rw [if_neg hne, hkept]

/-- Witness for C9: the row `(id=1, name=Null)` is not matched by
`WHERE name != 'x'`; SELECT omits it and DELETE keeps it. -/
theorem C9_witness :
    (evalWhereRecord [colIdPlain, ⟨"name", "TEXT", false, true, false⟩]
        [⟨"name", "!=", .str "x"⟩] [("id", .int 1), ("name", .null)] = .ok false) ∧
    (∃ taken, filterRecords [colIdPlain, ⟨"name", "TEXT", false, true, false⟩]
        [⟨"name", "!=", .str "x"⟩] [[("id", .int 1), ("name", .null)]] = .ok taken ∧
      ([("id", .int 1), ("name", .null)] : Rec) ∉ taken ∧
      execSelectQ ⟨[("t", ⟨"t", [colIdPlain, ⟨"name", "TEXT", false, true, false⟩],
          [[("id", .int 1), ("name", .null)]]⟩)], false, []⟩ "t" ["*"] [⟨"name", "!=", .str "x"⟩]
        = .ok (["id", "name"], taken.map (projectRecord ["id", "name"]))) ∧
    (∃ kept, keepRecords [colIdPlain, ⟨"name", "TEXT", false, true, false⟩]
        [⟨"name", "!=", .str "x"⟩] [[("id", .int 1), ("name", .null)]] = .ok kept ∧
      ([("id", .int 1), ("name", .null)] : Rec) ∈ kept ∧
      execDelete ⟨[("t", ⟨"t", [colIdPlain, ⟨"name", "TEXT", false, true, false⟩],
          [[("id", .int 1), ("name", .null)]]⟩)], false, []⟩ "t" [⟨"name", "!=", .str "x"⟩]
        = (updateTables ⟨[("t", ⟨"t", [colIdPlain, ⟨"name", "TEXT", false, true, false⟩],
            [[("id", .int 1), ("name", .null)]]⟩)], false, []⟩ "t"
            ⟨"t", [colIdPlain, ⟨"name", "TEXT", false, true, false⟩], kept⟩, none)) :=
  C9_null_never_matches
    ⟨[("t", ⟨"t", [colIdPlain, ⟨"name", "TEXT", false, true, false⟩],
        [[("id", .int 1), ("name", .null)]]⟩)], false, []⟩
    "t" ⟨"t", [colIdPlain, ⟨"name", "TEXT", false, true, false⟩],
        [[("id", .int 1), ("name", .null)]]⟩ "t"
    [⟨"name", "!=", .str "x"⟩] [("id", .int 1), ("name", .null)]
    ⟨"name", "!=", .str "x"⟩ "name"
    (by decide) (by decide) (by decide) (by decide) (by decide) (by decide)

/-! ### C4 (counterexample part) -/

/-- Counterexample to C4 as stated about SELECT: the `sqlight` executor
stores records in a plain slice and `executeSelect` iterates it in
insertion order — it never consults the B-tree.  Inserting ids 5 then 3
and running `SELECT * FROM t` returns the rows ordered `5, 3`, not
`3, 5`. -/
theorem C4_select_returns_insertion_order :
    execSelectQ
      (execStmts ⟨[("t", ⟨"t", [colIdPlain], []⟩)], false, []⟩
        [.insert "t" ["id"] [.int 5], .insert "t" ["id"] [.int 3]])
      "t" ["*"] []
      = .ok (["id"], [[("id", .int 5)], [("id", .int 3)]]) := by
  decide

/-! ### C5 — persistence round trip (`save`/`load`, database.go:759/768)

`save` marshals the table map with `encoding/json`; `load` unmarshals it
back.  The struct fields of `Table` and `Column` are typed, so schemas
decode exactly; record cells live in `map[string]interface{}`, where
`encoding/json` decodes every JSON number as `float64` — a stored Go
`int` comes back as a `float64`.  JSON object key order is not
significant and is modelled as list order. -/

/-- A JSON document. -/
inductive Json where
  | null
  | jb (b : Bool)
  | num (q : Rat)
  | str (s : String)
  | arr (items : List Json)
  | obj (fields : List (String × Json))

/-- Marshal one cell value (`int` and `float64` both print as numbers). -/
def encVal : Val → Json
  | .int n => .num n
  | .float q => .num q
  | .str s => .str s
  | .bool b => .jb b
  | .null => .null

/-- Marshal a `Record` (exported field `Columns`). -/
def encRecord (r : Rec) : Json :=
  .obj [("Columns", .obj (r.map (fun p => (p.1, encVal p.2))))]

/-- Marshal a `Column` (exported fields, default JSON names). -/
def encColumn (c : Column) : Json :=
  .obj [("Name", .str c.name), ("Type", .str c.type), ("PrimaryKey", .jb c.primaryKey),
        ("Nullable", .jb c.nullable), ("Unique", .jb c.unique)]

/-- Marshal a `Table`. -/
def encTable (t : Table) : Json :=
  .obj [("Name", .str t.name), ("Columns", .arr (t.columns.map encColumn)),
        ("Records", .arr (t.records.map encRecord))]

/-- `save` (database.go:759): marshal the whole table map. -/
def saveTables (ts : List (String × Table)) : Json :=
  .obj (ts.map (fun p => (p.1, encTable p.2)))

/-- Unmarshal a cell into `interface{}`: numbers become `float64`.
(Nested arrays/objects would decode into Go slices/maps, which the engine
never stores in a cell; `save` never emits them inside a record.) -/
def decVal : Json → Option Val
  | .null => some .null
  | .jb b => some (.bool b)
  | .num q => some (.float q)
  | .str s => some (.str s)
  | _ => none

/-- Field lookup in a decoded JSON object. -/
def jLookup : List (String × Json) → String → Option Json
  | [], _ => none
  | (k', j) :: rest, k => if k' = k then some j else jLookup rest k

/-- A string-typed struct field: absent fields keep the zero value. -/
def jFieldStr (fs : List (String × Json)) (k : String) : Option String :=
  match jLookup fs k with
  | none => some ""
  | some (.str s) => some s
  | some _ => none

/-- A bool-typed struct field: absent fields keep the zero value. -/
def jFieldBool (fs : List (String × Json)) (k : String) : Option Bool :=
  match jLookup fs k with
  | none => some false
  | some (.jb b) => some b
  | some _ => none

/-- Unmarshal the cells of one record. -/
def decFields : List (String × Json) → Option Rec
  | [] => some []
  | (k, j) :: rest =>
    match decVal j with
    | none => none
    | some v =>
      match decFields rest with
      | none => none
      | some vs => some ((k, v) :: vs)

/-- Unmarshal a `Record`. -/
def decRecord : Json → Option Rec
  | .obj fs =>
    match jLookup fs "Columns" with
    | none => some []
    | some .null => some []
    | some (.obj cols) => decFields cols
    | some _ => none
  | _ => none

/-- Unmarshal a `Column`. -/
def decColumn : Json → Option Column
  | .obj fs =>
    match jFieldStr fs "Name" with
    | none => none
    | some nm =>
      match jFieldStr fs "Type" with
      | none => none
      | some ty =>
        match jFieldBool fs "PrimaryKey" with
        | none => none
        | some pk =>
          match jFieldBool fs "Nullable" with
          | none => none
          | some nl =>
            match jFieldBool fs "Unique" with
            | none => none
            | some uq => some ⟨nm, ty, pk, nl, uq⟩
  | _ => none

/-- Unmarshal a list of columns. -/
def decColumnList : List Json → Option (List Column)
  | [] => some []
  | j :: rest =>
    match decColumn j with
    | none => none
    | some c =>
      match decColumnList rest with
      | none => none
      | some cs => some (c :: cs)

/-- Unmarshal a list of records. -/
def decRecordList : List Json → Option (List Rec)
  | [] => some []
  | j :: rest =>
    match decRecord j with
    | none => none
    | some r =>
      match decRecordList rest with
      | none => none
      | some rs => some (r :: rs)

/-- Unmarshal a `Table`. -/
def decTable (j : Json) : Option Table :=
  match j with
  | .obj fs =>
    match jFieldStr fs "Name" with
    | none => none
    | some nm =>
      match
        (match jLookup fs "Columns" with
         | none => some []
         | some .null => some []
         | some (.arr cs) => decColumnList cs
         | some _ => none) with
      | none => none
      | some cols =>
        match
          (match jLookup fs "Records" with
           | none => some []
           | some .null => some []
           | some (.arr rs) => decRecordList rs
           | some _ => none) with
        | none => none
        | some recs => some ⟨nm, cols, recs⟩
  | _ => none

/-- Unmarshal the table-map entries. -/
def decTableList : List (String × Json) → Option (List (String × Table))
  | [] => some []
  | (k, j) :: rest =>
    match decTable j with
    | none => none
    | some t =>
      match decTableList rest with
      | none => none
      | some ts => some ((k, t) :: ts)

/-- `load` (database.go:768): unmarshal the whole table map. -/
def loadTables (j : Json) : Option (List (String × Table)) :=
  match j with
  | .obj fs => decTableList fs
  | _ => none

/-- The numeric degradation of the round trip: `int` cells come back as
`float64` cells with the same value. -/
def floatifyVal : Val → Val
  | .int n => .float n
  | v => v

/-- `floatifyVal` over one record. -/
def floatifyRec (r : Rec) : Rec :=
  r.map (fun p => (p.1, floatifyVal p.2))

/-- `floatifyVal` over one table. -/
def floatifyTable (t : Table) : Table :=
  { t with records := t.records.map floatifyRec }

/-- `floatifyVal` over the table map. -/
def floatifyTables (ts : List (String × Table)) : List (String × Table) :=
  ts.map (fun p => (p.1, floatifyTable p.2))

theorem decVal_encVal (v : Val) : decVal (encVal v) = some (floatifyVal v) := by
  cases v <;> rfl

theorem decFields_enc (r : Rec) :
    decFields (List.map (fun p => (p.1, encVal p.2)) r) = some (floatifyRec r) := by
  induction r with
  | nil => rfl
  | cons p rest ih =>
    obtain ⟨k, v⟩ := p
    simp only [List.map, decFields, decVal_encVal, ih, floatifyRec]

theorem decRecord_encRecord (r : Rec) : decRecord (encRecord r) = some (floatifyRec r) := by
  simp only [encRecord, decRecord, jLookup, eq_self_iff_true, if_true, decFields_enc]

theorem decColumn_encColumn (c : Column) : decColumn (encColumn c) = some c := by
  rfl

theorem decColumnList_enc (cs : List Column) :
    decColumnList (cs.map encColumn) = some cs := by
  induction cs with
  | nil => rfl
  | cons c rest ih => simp only [List.map, decColumnList, decColumn_encColumn, ih]

theorem decRecordList_enc (rs : List Rec) :
    decRecordList (rs.map encRecord) = some (rs.map floatifyRec) := by
  induction rs with
  | nil => rfl
  | cons r rest ih => simp only [List.map, decRecordList, decRecord_encRecord, ih]

theorem decTable_encTable (t : Table) : decTable (encTable t) = some (floatifyTable t) := by
  simp [encTable, decTable, jFieldStr, jLookup, decColumnList_enc, decRecordList_enc,
    floatifyTable]

/-- C5 amended: loading a saved table set yields the same table names, the
same schemas and the same rows in the same order, except that every
integer cell value is reloaded as a float of the same numeric value
(`encoding/json` decodes all numbers in `map[string]interface{}` as
`float64`). -/
theorem C5_roundtrip_floatify (ts : List (String × Table)) :
    loadTables (saveTables ts) = some (floatifyTables ts) := by
  simp only [saveTables, loadTables]
  induction ts with
  | nil => rfl
  | cons p rest ih =>
    obtain ⟨k, t⟩ := p
    simp only [List.map, decTableList, decTable_encTable, ih, floatifyTables]

/-- Counterexample to C5 as stated: a table holding the single row
`(id = int 1)` does not round-trip to itself — the reloaded row holds
`float 1` — so `load(save(T)) = T` fails whenever an integer cell is
present. -/
theorem C5_roundtrip_not_identity :
    loadTables (saveTables [("t", ⟨"t", [colIdPlain], [[("id", .int 1)]]⟩)])
        = some [("t", ⟨"t", [colIdPlain], [[("id", .float 1)]]⟩)] ∧
    loadTables (saveTables [("t", ⟨"t", [colIdPlain], [[("id", .int 1)]]⟩)])
        ≠ some [("t", ⟨"t", [colIdPlain], [[("id", .int 1)]]⟩)] := by
  constructor
  · rfl
  · decide

/-- Witness for C5's amended theorem at a concrete one-table, one-row
input: the loaded table set is the saved one with the int cell floated. -/
theorem C5_witness :
    loadTables (saveTables [("t", ⟨"t", [colIdPlain], [[("id", Val.int 1)]]⟩)])
      = some (floatifyTables [("t", ⟨"t", [colIdPlain], [[("id", Val.int 1)]]⟩)]) :=
  C5_roundtrip_floatify [("t", ⟨"t", [colIdPlain], [[("id", Val.int 1)]]⟩)]

/-! ### The B+ tree (`unnamed/part_007`, also first half of `part_006`)

The Go nodes carry `Parent` and `Next` pointers; the functional rendering
below returns split results up the recursion instead of walking parent
pointers, and reads the leaf chain as the left-to-right in-order
traversal (splits insert the new right leaf directly after its left
sibling both in the parent and in the chain). -/

/-- `LeafNodeMaxRecords` / `InternalNodeMaxKeys` (both 3 in the source). -/
def LeafNodeMaxRecords : Nat := 3

/-- See `LeafNodeMaxRecords`. -/
def InternalNodeMaxKeys : Nat := 3

/-- A B+ tree node: a leaf holds key/record pairs (the parallel `Keys`
and `Records` arrays), an internal node holds routing keys and children
(`len Children = len Keys + 1`). -/
inductive BNode where
  | leaf (entries : List (Int × Rec))
  | internal (keys : List Int) (children : List BNode)

/-- `findPosition` (part_007:74): index of the first key with `k ≤ key`,
else the number of keys. -/
def findPosition (keys : List Int) (k : Int) : Nat :=
  match keys with
  | [] => 0
  | x :: xs => if k ≤ x then 0 else findPosition xs k + 1

/-- `insertIntoLeaf` (part_007:83): insert the pair at `findPosition`
in the parallel key/record arrays. -/
def insertIntoLeaf (entries : List (Int × Rec)) (k : Int) (r : Rec) : List (Int × Rec) :=
  match entries with
  | [] => [(k, r)]
  | p :: rest => if k ≤ p.1 then (k, r) :: p :: rest else p :: insertIntoLeaf rest k r

/-- Result of inserting below a node: either the updated node, or the two
halves of a split with the promoted separator key. -/
inductive InsResult where
  | one (n : BNode)
  | split (left : BNode) (sep : Int) (right : BNode)

/-- `BTree.Insert` below one node (part_007:45, with `splitLeaf`,
`insertIntoParent` and `splitInternal`): descend via `findPosition`,
insert into the leaf, split on overflow; the parent places the promoted
separator at `findPosition(sep)` and the new right node one position
later.  An out-of-range child index (impossible for the well-formed trees
grown by `Insert`, where `len Children = len Keys + 1`) leaves the node
unchanged. -/
def insertNode : BNode → Int → Rec → InsResult
  | .leaf entries, k, r =>
    let es := insertIntoLeaf entries k r
    if LeafNodeMaxRecords < es.length then
      let sp := (es.length + 1) / 2
      let right := es.drop sp
      .split (.leaf (es.take sp)) (right.headD (0, [])).1 (.leaf right)
    else .one (.leaf es)
  | .internal keys children, k, r =>
    let pos := findPosition keys k
    match h : children[pos]? with
    | none => .one (.internal keys children)
    | some child =>
      match insertNode child k r with
      | .one c' => .one (.internal keys (children.set pos c'))
      | .split l s rn =>
        let pos2 := findPosition keys s
        let keys' := keys.insertIdx pos2 s
        let children' := (children.set pos l).insertIdx (pos2 + 1) rn
        if InternalNodeMaxKeys < keys'.length then
          let sp := keys'.length / 2
          .split (.internal (keys'.take sp) (children'.take (sp + 1)))
            (keys'.getD sp 0)
            (.internal (keys'.drop (sp + 1)) (children'.drop (sp + 1)))
        else .one (.internal keys' children')
  termination_by n _ _ => sizeOf n
  decreasing_by
    simp only [BNode.internal.sizeOf_spec]
    have hmem : child ∈ children := by
      have := List.getElem?_eq_some_iff.mp h
      obtain ⟨hlt, hEq⟩ := this
      exact hEq ▸ children.getElem_mem hlt
    have := List.sizeOf_lt_of_mem hmem
    omega

mutual
/-- `BTree.Scan` (part_007:259): walk to the leftmost leaf and follow the
`Next` chain — i.e. concatenate the leaves left to right. -/
def scanNode : BNode → List (Int × Rec)
  | .leaf entries => entries
  | .internal _ children => scanList children

/-- The concatenated scans of a child list (what the leaf chain yields). -/
def scanList : List BNode → List (Int × Rec)
  | [] => []
  | c :: cs => scanNode c ++ scanList cs
end

/-- The `BTree` struct: just a root. -/
structure BTree where
  root : BNode

/-- `NewBTree` (part_007:33): an empty leaf root. -/
def newBTree : BTree := ⟨.leaf []⟩

/-- `BTree.Insert` at the root: a root split grows a new root with one
separator key and two children.  As in the source, the method never
reports an error — duplicates are inserted. -/
def BTree.insertB (t : BTree) (k : Int) (r : Rec) : BTree :=
  match insertNode t.root k r with
  | .one n => ⟨n⟩
  | .split l s rn => ⟨.internal [s] [l, rn]⟩

/-- `BTree.Scan` on the tree. -/
def BTree.scanB (t : BTree) : List (Int × Rec) :=
  scanNode t.root

/-- `BTree.Search` (part_007:282): descend via `findPosition`; in the
leaf, report the record at `findPosition` when its key matches. -/
def searchNode : BNode → Int → Option Rec
  | .leaf entries, k =>
    match entries[findPosition (entries.map Prod.fst) k]? with
    | some p => if p.1 = k then some p.2 else none
    | none => none
  | .internal keys children, k =>
    match h : children[findPosition keys k]? with
    | some child => searchNode child k
    | none => none
  termination_by n _ => sizeOf n
  decreasing_by
    simp only [BNode.internal.sizeOf_spec]
    have hmem : child ∈ children := by
      have := List.getElem?_eq_some_iff.mp h
      obtain ⟨hlt, hEq⟩ := this
      exact hEq ▸ children.getElem_mem hlt
    have := List.sizeOf_lt_of_mem hmem
    omega

/-! ### Well-formedness and ordering of the B+ tree

Invariant for trees grown by `insertB` from the empty tree with pairwise
distinct keys: child subtrees sit in half-open key intervals (lower bound
inclusive — a split's right node starts with the separator; upper bound
strict), and every routing key occurs as a leaf key of the child directly
after it. -/

/-- Entry order: by key. -/
def entLe (p q : Int × Rec) : Prop := p.1 ≤ q.1

instance : DecidableRel entLe := fun p q => Int.decLe p.1 q.1

/-- Inclusive optional lower bound. -/
def loOk (lo : Option Int) (k : Int) : Prop := ∀ a ∈ lo, a ≤ k

/-- Strict optional lower bound. -/
def loLt (lo : Option Int) (k : Int) : Prop := ∀ a ∈ lo, a < k

/-- Strict optional upper bound. -/
def hiLt (hi : Option Int) (k : Int) : Prop := ∀ a ∈ hi, k < a

/-- The scan keys of the first child of a list. -/
def firstScanKeys : List BNode → List Int
  | [] => []
  | c :: _ => (scanNode c).map Prod.fst

mutual
/-- Well-formed subtree within `[lo, hi)`. -/
inductive Wf : Option Int → Option Int → BNode → Prop where
  | leaf {lo hi : Option Int} {entries : List (Int × Rec)} :
      List.Chain' (· < ·) (entries.map Prod.fst) →
      (∀ p ∈ entries, loOk lo p.1 ∧ hiLt hi p.1) →
      Wf lo hi (.leaf entries)
  | internal {lo hi : Option Int} {keys : List Int} {children : List BNode} :
      WfCh lo hi keys children →
      Wf lo hi (.internal keys children)

/-- Well-formed routing chain: alternating children and separator keys.
A key `k` bounds its left neighbour strictly from above and its right
neighbour inclusively from below, lies within the node's own bounds, and
occurs among the leaf keys of the child directly after it. -/
inductive WfCh : Option Int → Option Int → List Int → List BNode → Prop where
  | single {lo hi : Option Int} {c : BNode} :
      Wf lo hi c → WfCh lo hi [] [c]
  | cons {lo hi : Option Int} {k : Int} {ks : List Int} {c : BNode} {cs : List BNode} :
      Wf lo (some k) c →
      loOk lo k → hiLt hi k →
      k ∈ firstScanKeys cs →
      WfCh (some k) hi ks cs →
      WfCh lo hi (k :: ks) (c :: cs)
end

theorem scanList_nil : scanList [] = [] := rfl

theorem scanList_cons (c : BNode) (cs : List BNode) :
    scanList (c :: cs) = scanNode c ++ scanList cs := rfl

theorem scanNode_internal (keys : List Int) (children : List BNode) :
    scanNode (.internal keys children) = scanList children := rfl

theorem scanList_take_drop (l : List BNode) (n : Nat) :
    scanList (l.take n) ++ scanList (l.drop n) = scanList l := by
  induction l generalizing n with
  | nil => simp [scanList]
  | cons c cs ih =>
    cases n with
    | zero => simp [scanList]
    | succ m =>
      simp only [List.take_succ_cons, List.drop_succ_cons, scanList_cons, List.append_assoc]
      rw [ih m]

theorem mem_scanList_of_mem_first (cs : List BNode) (a : Int)
    (h : a ∈ firstScanKeys cs) : a ∈ (scanList cs).map Prod.fst := by
  cases cs with
  | nil => simp [firstScanKeys] at h
  | cons c rest =>
    simp only [firstScanKeys] at h
    simp only [scanList_cons, List.map_append, List.mem_append]
    exact Or.inl h

mutual
theorem wf_scan_bounds : ∀ {lo hi : Option Int} {n : BNode}, Wf lo hi n →
    ∀ p ∈ scanNode n, loOk lo p.1 ∧ hiLt hi p.1
  | _, _, _, .leaf _ hb => fun p hp => hb p hp
  | _, _, _, .internal hch => fun p hp => wfch_scan_bounds hch p hp

theorem wfch_scan_bounds : ∀ {lo hi : Option Int} {keys : List Int} {children : List BNode},
    WfCh lo hi keys children → ∀ p ∈ scanList children, loOk lo p.1 ∧ hiLt hi p.1
  | _, _, _, _, @WfCh.single lo hi c hc => fun p hp => by
    have hp' : p ∈ scanNode c := by simpa [scanList] using hp
    exact wf_scan_bounds hc p hp'
  | _, _, _, _, @WfCh.cons lo hi k ks c cs hwc hlo hhi _ hch => fun p hp => by
    rw [scanList_cons, List.mem_append] at hp
    rcases hp with hp | hp
    · obtain ⟨h1, h2⟩ := wf_scan_bounds hwc p hp
      refine ⟨h1, ?_⟩
      intro b hb
      have hk : p.1 < k := h2 k rfl
      exact lt_trans hk (hhi b hb)
    · obtain ⟨h1, h2⟩ := wfch_scan_bounds hch p hp
      refine ⟨?_, h2⟩
      intro b hb
      exact le_trans (hlo b hb) (h1 k rfl)
end

mutual
theorem wf_scan_sorted : ∀ {lo hi : Option Int} {n : BNode}, Wf lo hi n →
    List.Chain' (· < ·) ((scanNode n).map Prod.fst)
  | _, _, _, .leaf hs _ => hs
  | _, _, _, .internal hch => wfch_scan_sorted hch

theorem wfch_scan_sorted : ∀ {lo hi : Option Int} {keys : List Int} {children : List BNode},
    WfCh lo hi keys children → List.Chain' (· < ·) ((scanList children).map Prod.fst)
  | _, _, _, _, @WfCh.single lo hi c hc => by
    have := wf_scan_sorted hc
    simpa [scanList] using this
  | _, _, _, _, @WfCh.cons lo hi k ks c cs hwc hlo hhi hD hch => by
    rw [scanList_cons, List.map_append]
    refine List.Chain'.append (wf_scan_sorted hwc) (wfch_scan_sorted hch) ?_
    intro x hx y hy
    have hxm : x ∈ (scanNode c).map Prod.fst := List.mem_of_mem_getLast? hx
    obtain ⟨p, hp, hpx⟩ := List.mem_map.mp hxm
    have hym : y ∈ (scanList cs).map Prod.fst := List.mem_of_mem_head? hy
    obtain ⟨q, hq, hqy⟩ := List.mem_map.mp hym
    have hxk : x < k := by
      have := (wf_scan_bounds hwc p hp).2
      rw [hpx] at this
      exact this k rfl
    have hky : k ≤ y := by
      have := (wfch_scan_bounds hch q hq).1
      rw [hqy] at this
      exact this k rfl
    exact lt_of_lt_of_le hxk hky
end

theorem insertIntoLeaf_eq_orderedInsert (k : Int) (r : Rec) :
    ∀ entries, insertIntoLeaf entries k r = List.orderedInsert entLe (k, r) entries := by
  intro entries
  induction entries with
  | nil => rfl
  | cons p rest ih =>
    by_cases h : k ≤ p.1
    · simp [insertIntoLeaf, List.orderedInsert, entLe, h]
    · simp [insertIntoLeaf, List.orderedInsert, entLe, h, ih]

theorem orderedInsert_append_of_lt (k : Int) (r : Rec) :
    ∀ (A B : List (Int × Rec)), (∀ a ∈ A, a.1 < k) →
      List.orderedInsert entLe (k, r) (A ++ B) = A ++ List.orderedInsert entLe (k, r) B := by
  intro A
  induction A with
  | nil => intro B _; rfl
  | cons a rest ih =>
    intro B hA
    have hna : ¬entLe (k, r) a := by
      simp only [entLe, not_le]
      exact hA a (by simp)
    simp only [List.cons_append, List.orderedInsert, if_neg hna]
    exact congrArg (a :: ·) (ih B (fun x hx => hA x (by simp [hx])))

theorem orderedInsert_append_of_le (k : Int) (r : Rec) :
    ∀ (B C : List (Int × Rec)), (∀ c ∈ C, k ≤ c.1) →
      List.orderedInsert entLe (k, r) (B ++ C) = List.orderedInsert entLe (k, r) B ++ C := by
  intro B
  induction B with
  | nil =>
    intro C hC
    cases C with
    | nil => rfl
    | cons c rest =>
      have : entLe (k, r) c := hC c (by simp)
      simp [List.orderedInsert, this]
  | cons b rest ih =>
    intro C hC
    by_cases hb : entLe (k, r) b
    · simp [List.orderedInsert, hb]
    · simp only [List.cons_append, List.orderedInsert, if_neg hb]
      exact congrArg (b :: ·) (ih C hC)

theorem orderedInsert_ne_nil (k : Int) (r : Rec) (l : List (Int × Rec)) :
    List.orderedInsert entLe (k, r) l ≠ [] := by
  cases l with
  | nil => simp [List.orderedInsert]
  | cons p rest =>
    by_cases h : entLe (k, r) p <;> simp [List.orderedInsert, h]

theorem mem_orderedInsert_of_mem (k : Int) (r : Rec) (l : List (Int × Rec))
    (x : Int × Rec) (hx : x ∈ l) : x ∈ List.orderedInsert entLe (k, r) l :=
  (List.perm_orderedInsert entLe (k, r) l).mem_iff.mpr (by simp [hx])

/-- In a strictly sorted entry list whose keys all dominate `a`, a member
with key `a` must be the head. -/
theorem head_eq_of_min (l : List (Int × Rec)) (a : Int)
    (hsort : List.Chain' (· < ·) (l.map Prod.fst))
    (hmem : a ∈ l.map Prod.fst) (hmin : ∀ x ∈ l.map Prod.fst, a ≤ x) :
    ∃ ra, l.head? = some (a, ra) := by
  cases l with
  | nil => simp at hmem
  | cons p rest =>
    obtain ⟨p1, p2⟩ := p
    have hpa : a ≤ p1 := hmin p1 (by simp)
    rw [List.map_cons] at hmem
    rcases List.mem_cons.mp hmem with hEq | hMem
    · exact ⟨p2, by simp [hEq]⟩
    · exfalso
      have hpw : ∀ y ∈ rest.map Prod.fst, p1 < y := by
        have := List.chain'_iff_pairwise.mp hsort
        simp only [List.map_cons, List.pairwise_cons] at this
        exact this.1
      have : p1 < a := hpw a hMem
      omega

/-- The head of an ordered insert of a strictly larger key is unchanged. -/
theorem orderedInsert_head_of_gt (k : Int) (r : Rec) (p : Int × Rec)
    (rest : List (Int × Rec)) (h : p.1 < k) :
    List.orderedInsert entLe (k, r) (p :: rest)
      = p :: List.orderedInsert entLe (k, r) rest := by
  have : ¬entLe (k, r) p := by simp only [entLe, not_le]; exact h
  simp [List.orderedInsert, this]

/-- Keys of a routing chain lie within the chain's bounds. -/
theorem wfch_keys_bounds : ∀ {lo hi : Option Int} {keys : List Int} {children : List BNode},
    WfCh lo hi keys children → ∀ k' ∈ keys, loOk lo k' ∧ hiLt hi k'
  | _, _, _, _, @WfCh.single _ _ _ _ => by simp
  | _, _, _, _, @WfCh.cons lo hi k ks c cs hwc hlo hhi hD hch => by
    intro k' hk'
    rcases List.mem_cons.mp hk' with hEq | hMem
    · subst hEq; exact ⟨hlo, hhi⟩
    · obtain ⟨h1, h2⟩ := wfch_keys_bounds hch k' hMem
      exact ⟨fun b hb => le_trans (hlo b hb) (h1 k rfl), h2⟩

/-- A chain's shape: one more child than keys. -/
theorem wfch_length : ∀ {lo hi : Option Int} {keys : List Int} {children : List BNode},
    WfCh lo hi keys children → children.length = keys.length + 1
  | _, _, _, _, @WfCh.single _ _ _ _ => rfl
  | _, _, _, _, @WfCh.cons _ _ _ _ _ _ _ _ _ _ hch => by
    simpa using wfch_length hch

theorem firstScanKeys_take (l : List BNode) (n : Nat) :
    firstScanKeys (l.take (n + 1)) = firstScanKeys l := by
  cases l with
  | nil => rfl
  | cons c cs => rfl

/-- Splitting a routing chain at an interior separator yields two
well-formed chains around it; the separator stays strictly inside the
outer bounds, occurs in the right part's first child, and the left part's
scan is nonempty. -/
theorem wfch_split : ∀ {lo hi : Option Int} {keys : List Int} {children : List BNode},
    WfCh lo hi keys children → ∀ sp : Nat, 1 ≤ sp → sp < keys.length →
    WfCh lo (some (keys.getD sp 0)) (keys.take sp) (children.take (sp + 1)) ∧
    WfCh (some (keys.getD sp 0)) hi (keys.drop (sp + 1)) (children.drop (sp + 1)) ∧
    loLt lo (keys.getD sp 0) ∧ hiLt hi (keys.getD sp 0) ∧
    keys.getD sp 0 ∈ firstScanKeys (children.drop (sp + 1)) ∧
    scanList (children.take (sp + 1)) ≠ []
  | _, _, _, _, @WfCh.single _ _ _ _ => by
    intro sp hsp1 hsp2
    simp at hsp2
  | _, _, _, _, @WfCh.cons lo hi k0 ks c cs hwc hlo hhi hD hch => by
    intro sp hsp1 hsp2
    match sp, hsp1 with
    | 1, _ =>
      cases hch with
      | single hc =>
        simp at hsp2
      | @cons _ _ k1 ks' c1 cs' hwc1 hlo1 hhi1 hD1 hch1 =>
        have hD' : k0 ∈ (scanNode c1).map Prod.fst := hD
        have hk01 : k0 < k1 := by
          obtain ⟨p, hp, hpk⟩ := List.mem_map.mp hD'
          have hb := (wf_scan_bounds hwc1 p hp).2 k1 rfl
          omega
        refine ⟨?_, ?_, ?_, ?_, ?_, ?_⟩
        · exact WfCh.cons hwc hlo (fun b hb => by cases hb; exact hk01) hD (WfCh.single hwc1)
        · exact hch1
        · intro a ha
          exact lt_of_le_of_lt (hlo a ha) hk01
        · exact hhi1
        · exact hD1
        · intro habs
          rw [show ((c :: c1 :: cs').take 2) = [c, c1] from rfl] at habs
          have : k0 ∈ (scanList [c, c1]).map Prod.fst := by
            apply List.mem_map.mpr
            obtain ⟨p, hp, hpk⟩ := List.mem_map.mp hD'
            exact ⟨p, by simp [scanList, hp], hpk⟩
          rw [habs] at this
          simp at this
    | (m + 2), _ =>
      have hlen : m + 1 < ks.length := by
        simp only [List.length_cons] at hsp2
        omega
      obtain ⟨hL, hR, hlt, hht, hDs, hne⟩ := wfch_split hch (m + 1) (by omega) hlen
      have hgd : (k0 :: ks).getD (m + 2) 0 = ks.getD (m + 1) 0 := rfl
      rw [hgd]
      have hcs : ∃ c1 cs', cs = c1 :: cs' := by
        cases hch with
        | single hc => simp at hlen
        | cons _ _ _ _ _ => exact ⟨_, _, rfl⟩
      obtain ⟨c1, cs', hcs⟩ := hcs
      refine ⟨?_, ?_, ?_, ?_, ?_, ?_⟩
      · rw [show (k0 :: ks).take (m + 2) = k0 :: ks.take (m + 1) from rfl,
           show ((c :: cs).take (m + 2 + 1)) = c :: cs.take (m + 2) from rfl]
        refine WfCh.cons hwc hlo ?_ ?_ hL
        · intro b hb
          cases hb
          exact hlt k0 rfl
        · subst hcs
          rw [firstScanKeys_take]
          exact hD
      · exact hR
      · intro a ha
        exact lt_of_le_of_lt (hlo a ha) (hlt k0 rfl)
      · exact hht
      · exact hDs
      · intro habs
        rw [show ((c :: cs).take (m + 2 + 1)) = c :: cs.take (m + 2) from rfl, scanList_cons] at habs
        refine hne ?_
        cases hsl : scanList (cs.take (m + 2)) with
        | nil => rfl
        | cons x xs =>
          rw [hsl] at habs
          simp at habs

theorem map_fst_orderedInsert (k : Int) (r : Rec) :
    ∀ l : List (Int × Rec),
      (List.orderedInsert entLe (k, r) l).map Prod.fst
        = List.orderedInsert (· ≤ ·) k (l.map Prod.fst) := by
  intro l
  induction l with
  | nil => rfl
  | cons p rest ih =>
    by_cases h : k ≤ p.1
    · simp [List.orderedInsert, entLe, h]
    · simp [List.orderedInsert, entLe, h, ih]

theorem orderedInsertKey_sorted (k : Int) :
    ∀ l : List Int, List.Chain' (· < ·) l → k ∉ l →
      List.Chain' (· < ·) (List.orderedInsert (· ≤ ·) k l) := by
  intro l
  induction l with
  | nil => intro _ _; simp [List.orderedInsert]
  | cons x rest ih =>
    intro hs hf
    by_cases h : k ≤ x
    · have hkx : k < x := lt_of_le_of_ne h (by intro hEq; exact hf (by simp [hEq]))
      simpa [List.orderedInsert, h] using (List.chain'_cons'.mpr ⟨by intro y hy; cases hy; exact hkx, hs⟩)
    · push_neg at h
      rw [List.orderedInsert, if_neg (by omega : ¬ k ≤ x)]
      rw [List.chain'_cons'] at hs
      refine List.chain'_cons'.mpr ⟨?_, ih hs.2 (by intro hm; exact hf (by simp [hm]))⟩
      intro y hy
      cases rest with
      | nil =>
        simp [List.orderedInsert] at hy
        omega
      | cons z zs =>
        by_cases hz : k ≤ z
        · simp only [List.orderedInsert, if_pos hz, List.head?_cons, Option.mem_def,
            Option.some.injEq] at hy
          omega
        · simp only [List.orderedInsert, if_neg hz, List.head?_cons, Option.mem_def,
            Option.some.injEq] at hy
          have := hs.1 z (by simp)
          omega

/-- Head preservation: inserting a strictly larger key leaves the head of
a strictly sorted list — its minimum — in place. -/
theorem orderedInsert_head_preserved (l : List (Int × Rec)) (a k : Int) (r : Rec)
    (hsort : List.Chain' (· < ·) (l.map Prod.fst))
    (hmem : a ∈ l.map Prod.fst)
    (hmin : ∀ x ∈ l.map Prod.fst, a ≤ x) (hk : a < k) :
    ∃ ra, l.head? = some (a, ra) ∧
      (List.orderedInsert entLe (k, r) l).head? = some (a, ra) := by
  obtain ⟨ra, hra⟩ := head_eq_of_min l a hsort hmem hmin
  cases l with
  | nil => simp at hra
  | cons p rest =>
    simp only [List.head?_cons, Option.some.injEq] at hra
    refine ⟨ra, by simp [hra], ?_⟩
    have hp1 : p.1 = a := by rw [hra]
    rw [orderedInsert_head_of_gt k r p rest (by omega)]
    simp [hra]

/-- Conclusion of one routing-chain splice: the child at the insertion
position exists, and whichever way its insert returns, the updated chain
is well formed, its scan is the ordered insert into the old scan, and the
chain's own first leaf key survives. -/
def SpliceConc (lo hi : Option Int) (keys : List Int) (children : List BNode)
    (k : Int) (r : Rec) : Prop :=
  ∃ child, children[findPosition keys k]? = some child ∧
    ((∀ c', insertNode child k r = .one c' →
        WfCh lo hi keys (children.set (findPosition keys k) c') ∧
        scanList (children.set (findPosition keys k) c')
          = List.orderedInsert entLe (k, r) (scanList children) ∧
        (∀ a, lo = some a → a ∈ firstScanKeys children →
          a ∈ firstScanKeys (children.set (findPosition keys k) c'))) ∧
     (∀ l s rn, insertNode child k r = .split l s rn →
        loLt lo s ∧ hiLt hi s ∧
        WfCh lo hi (keys.insertIdx (findPosition keys s) s)
          ((children.set (findPosition keys k) l).insertIdx (findPosition keys s + 1) rn) ∧
        scanList ((children.set (findPosition keys k) l).insertIdx (findPosition keys s + 1) rn)
          = List.orderedInsert entLe (k, r) (scanList children) ∧
        (∀ a, lo = some a → a ∈ firstScanKeys children →
          a ∈ firstScanKeys ((children.set (findPosition keys k) l).insertIdx
            (findPosition keys s + 1) rn))))

/-- Postcondition of `insertNode` on a well-formed subtree with a fresh
in-bounds key. -/
def insOk (lo hi : Option Int) (t : BNode) (k : Int) (r : Rec) : Prop :=
  (∀ t', insertNode t k r = .one t' →
      Wf lo hi t' ∧ scanNode t' = List.orderedInsert entLe (k, r) (scanNode t)) ∧
  (∀ l s rn, insertNode t k r = .split l s rn →
      Wf lo (some s) l ∧ Wf (some s) hi rn ∧ loLt lo s ∧ hiLt hi s ∧
      s ∈ (scanNode rn).map Prod.fst ∧ scanNode l ≠ [] ∧
      scanNode l ++ scanNode rn = List.orderedInsert entLe (k, r) (scanNode t))

theorem insertNode_leaf_eq (entries : List (Int × Rec)) (k : Int) (r : Rec) :
    insertNode (.leaf entries) k r =
      if LeafNodeMaxRecords < (insertIntoLeaf entries k r).length then
        .split (.leaf ((insertIntoLeaf entries k r).take
            (((insertIntoLeaf entries k r).length + 1) / 2)))
          (((insertIntoLeaf entries k r).drop
            (((insertIntoLeaf entries k r).length + 1) / 2)).headD (0, [])).1
          (.leaf ((insertIntoLeaf entries k r).drop
            (((insertIntoLeaf entries k r).length + 1) / 2)))
      else .one (.leaf (insertIntoLeaf entries k r)) := by
  conv_lhs => unfold insertNode

theorem insertNode_internal_one (keys : List Int) (children : List BNode) (k : Int) (r : Rec)
    (child c' : BNode) (h : children[findPosition keys k]? = some child)
    (h2 : insertNode child k r = .one c') :
    insertNode (.internal keys children) k r =
      .one (.internal keys (children.set (findPosition keys k) c')) := by
  conv_lhs => unfold insertNode
  simp only []
  split
  next h3 => rw [h3] at h; cases h
  next child2 h3 =>
    rw [h3] at h
    injection h with h
    subst h
    simp only [h2]

theorem insertNode_internal_split (keys : List Int) (children : List BNode) (k : Int) (r : Rec)
    (child l : BNode) (s : Int) (rn : BNode) (h : children[findPosition keys k]? = some child)
    (h2 : insertNode child k r = .split l s rn) :
    insertNode (.internal keys children) k r =
      (if InternalNodeMaxKeys < (keys.insertIdx (findPosition keys s) s).length then
        .split
          (.internal ((keys.insertIdx (findPosition keys s) s).take
              ((keys.insertIdx (findPosition keys s) s).length / 2))
            (((children.set (findPosition keys k) l).insertIdx (findPosition keys s + 1) rn).take
              ((keys.insertIdx (findPosition keys s) s).length / 2 + 1)))
          ((keys.insertIdx (findPosition keys s) s).getD
            ((keys.insertIdx (findPosition keys s) s).length / 2) 0)
          (.internal ((keys.insertIdx (findPosition keys s) s).drop
              ((keys.insertIdx (findPosition keys s) s).length / 2 + 1))
            (((children.set (findPosition keys k) l).insertIdx (findPosition keys s + 1) rn).drop
              ((keys.insertIdx (findPosition keys s) s).length / 2 + 1)))
      else .one (.internal (keys.insertIdx (findPosition keys s) s)
          ((children.set (findPosition keys k) l).insertIdx (findPosition keys s + 1) rn))) := by
  conv_lhs => unfold insertNode
  simp only []
  split
  next h3 => rw [h3] at h; cases h
  next child2 h3 =>
    rw [h3] at h
    injection h with h
    subst h
    simp only [h2]

/-- All scan keys of a well-formed subtree with lower bound `a` dominate `a`. -/
theorem first_key_min {lo hi : Option Int} {c : BNode} (hc : Wf lo hi c)
    (a : Int) (ha : lo = some a) : ∀ x ∈ (scanNode c).map Prod.fst, a ≤ x := by
  intro x hx
  obtain ⟨p, hp, hpx⟩ := List.mem_map.mp hx
  have := (wf_scan_bounds hc p hp).1 a ha
  exact hpx ▸ this

/-- The first scan entry of a well-formed subtree whose lower bound key is
present survives an ordered insert of a strictly larger key. -/
theorem first_preserved {lo hi : Option Int} {c : BNode} (hc : Wf lo hi c)
    (k : Int) (r : Rec) (a : Int) (ha : lo = some a)
    (hafk : a ∈ (scanNode c).map Prod.fst) (hak : a < k) :
    ∃ ra, (scanNode c).head? = some (a, ra) ∧
      (List.orderedInsert entLe (k, r) (scanNode c)).head? = some (a, ra) :=
  orderedInsert_head_preserved (scanNode c) a k r (wf_scan_sorted hc) hafk
    (first_key_min hc a ha) hak

/-- Splicing a child insert into a well-formed routing chain: assuming the
insert postcondition for every child, the chain updated at `findPosition`
is well formed, scans to the ordered insert, and keeps its first leaf key. -/
theorem splice_spec (k : Int) (r : Rec) :
    ∀ {lo hi : Option Int} {keys : List Int} {children : List BNode},
      WfCh lo hi keys children →
      (∀ c ∈ children, ∀ lo' hi' : Option Int, Wf lo' hi' c → loLt lo' k → hiLt hi' k →
          k ∉ (scanNode c).map Prod.fst → insOk lo' hi' c k r) →
      loLt lo k → hiLt hi k → k ∉ (scanList children).map Prod.fst →
      SpliceConc lo hi keys children k r
  | _, _, _, _, @WfCh.single lo hi c hc => by
    intro IH hlok hhik hfresh
    have hfr : k ∉ (scanNode c).map Prod.fst := by
      intro hm; exact hfresh (by simpa [scanList] using hm)
    have hok := IH c (by simp) lo hi hc hlok hhik hfr
    refine ⟨c, rfl, ?_, ?_⟩
    · intro c' h1
      obtain ⟨hwf', hscan'⟩ := hok.1 c' h1
      refine ⟨WfCh.single hwf', ?_, ?_⟩
      · show scanList [c'] = _
        simp only [scanList_cons, scanList_nil, List.append_nil]
        exact hscan'
      · intro a ha hafk
        have hak : a < k := hlok a ha
        obtain ⟨ra, hhd, hhd'⟩ := first_preserved hc k r a ha hafk hak
        have hmem' : (a, ra) ∈ scanNode c' := by
          rw [hscan']
          exact List.mem_of_mem_head? (by rw [hhd']; rfl)
        exact List.mem_map.mpr ⟨(a, ra), hmem', rfl⟩
    · intro l s rn h2
      obtain ⟨hwfl, hwfr, hlos, hhis, hsmem, hlne, hscan'⟩ := hok.2 l s rn h2
      refine ⟨hlos, hhis, ?_, ?_, ?_⟩
      · show WfCh lo hi [s] [l, rn]
        exact WfCh.cons hwfl (fun a ha => le_of_lt (hlos a ha)) hhis hsmem (WfCh.single hwfr)
      · show scanList [l, rn] = _
        simp only [scanList_cons, scanList_nil, List.append_nil]
        exact hscan'
      · intro a ha hafk
        have hak : a < k := hlok a ha
        obtain ⟨ra, hhd, hhd'⟩ := first_preserved hc k r a ha hafk hak
        have hheq : (scanNode l ++ scanNode rn).head? = some (a, ra) := by
          rw [hscan']; exact hhd'
        cases hl : scanNode l with
        | nil => exact absurd hl hlne
        | cons p ps =>
          rw [hl] at hheq
          simp only [List.cons_append, List.head?_cons, Option.some.injEq] at hheq
          show a ∈ firstScanKeys [l, rn]
          have hm : (a, ra) ∈ scanNode l := by rw [hl, hheq]; simp
          exact List.mem_map.mpr ⟨(a, ra), hm, rfl⟩
  | _, _, _, _, @WfCh.cons lo hi k0 ks c cs hwc hlo0 hhi0 hD hch => by
    intro IH hlok hhik hfresh
    have hfreshc : k ∉ (scanNode c).map Prod.fst := by
      intro hm
      exact hfresh (by rw [scanList_cons, List.map_append]; exact List.mem_append.mpr (Or.inl hm))
    have hfreshcs : k ∉ (scanList cs).map Prod.fst := by
      intro hm
      exact hfresh (by rw [scanList_cons, List.map_append]; exact List.mem_append.mpr (Or.inr hm))
    by_cases hk0 : k ≤ k0
    · have hkne : k ≠ k0 := by
        intro hEq
        apply hfreshcs
        subst hEq
        exact mem_scanList_of_mem_first cs k hD
      have hklt : k < k0 := lt_of_le_of_ne hk0 hkne
      have hpos : findPosition (k0 :: ks) k = 0 := by simp [findPosition, hk0]
      have hok := IH c (by simp) lo (some k0) hwc hlok
        (fun b hb => by cases hb; exact hklt) hfreshc
      have hle : ∀ x ∈ scanList cs, k ≤ x.1 := fun x hx =>
        le_trans (le_of_lt hklt) ((wfch_scan_bounds hch x hx).1 k0 rfl)
      refine ⟨c, ?_, ?_, ?_⟩
      · rw [hpos]
        simp
      · rw [hpos]
        intro c' h1
        obtain ⟨hwf', hscan'⟩ := hok.1 c' h1
        refine ⟨?_, ?_, ?_⟩
        · show WfCh lo hi (k0 :: ks) (c' :: cs)
          exact WfCh.cons hwf' hlo0 hhi0 hD hch
        · show scanList (c' :: cs) = _
          simp only [scanList_cons]
          rw [hscan']
          exact (orderedInsert_append_of_le k r (scanNode c) (scanList cs) hle).symm
        · intro a ha hafk
          have hak : a < k := hlok a ha
          obtain ⟨ra, hhd, hhd'⟩ := first_preserved hwc k r a ha hafk hak
          have hmem' : (a, ra) ∈ scanNode c' := by
            rw [hscan']
            exact List.mem_of_mem_head? (by rw [hhd']; rfl)
          exact List.mem_map.mpr ⟨(a, ra), hmem', rfl⟩
      · rw [hpos]
        intro l s rn h2
        obtain ⟨hwfl, hwfr, hlos, hhis, hsmem, hlne, hscan'⟩ := hok.2 l s rn h2
        have hsk0 : s < k0 := hhis k0 rfl
        have hpos2 : findPosition (k0 :: ks) s = 0 := by
          simp [findPosition, le_of_lt hsk0]
        rw [hpos2]
        refine ⟨hlos, fun b hb => lt_trans hsk0 (hhi0 b hb), ?_, ?_, ?_⟩
        · show WfCh lo hi (s :: k0 :: ks) (l :: rn :: cs)
          refine WfCh.cons hwfl (fun a ha => le_of_lt (hlos a ha))
            (fun b hb => lt_trans hsk0 (hhi0 b hb)) hsmem ?_
          exact WfCh.cons hwfr (fun a ha => by cases ha; exact le_of_lt hsk0) hhi0 hD hch
        · show scanList (l :: rn :: cs) = _
          simp only [scanList_cons]
          rw [← List.append_assoc, hscan']
          exact (orderedInsert_append_of_le k r (scanNode c) (scanList cs) hle).symm
        · intro a ha hafk
          have hak : a < k := hlok a ha
          obtain ⟨ra, hhd, hhd'⟩ := first_preserved hwc k r a ha hafk hak
          have hheq : (scanNode l ++ scanNode rn).head? = some (a, ra) := by
            rw [hscan']; exact hhd'
          cases hl : scanNode l with
          | nil => exact absurd hl hlne
          | cons p ps =>
            rw [hl] at hheq
            simp only [List.cons_append, List.head?_cons, Option.some.injEq] at hheq
            show a ∈ firstScanKeys (l :: rn :: cs)
            have hm : (a, ra) ∈ scanNode l := by rw [hl, hheq]; simp
            exact List.mem_map.mpr ⟨(a, ra), hm, rfl⟩
    · have hklt : k0 < k := not_le.mp hk0
      have hpos : findPosition (k0 :: ks) k = findPosition ks k + 1 := by
        simp [findPosition, hk0]
      have IH' : ∀ c' ∈ cs, ∀ lo' hi' : Option Int, Wf lo' hi' c' → loLt lo' k → hiLt hi' k →
          k ∉ (scanNode c').map Prod.fst → insOk lo' hi' c' k r :=
        fun c' hc' => IH c' (List.mem_cons_of_mem c hc')
      have hlok' : loLt (some k0) k := fun b hb => by cases hb; exact hklt
      have hclt : ∀ a ∈ scanNode c, a.1 < k := fun a hac =>
        lt_trans ((wf_scan_bounds hwc a hac).2 k0 rfl) hklt
      obtain ⟨child, hchild, hone, hsplit⟩ := splice_spec k r hch IH' hlok' hhik hfreshcs
      refine ⟨child, ?_, ?_, ?_⟩
      · rw [hpos]
        simpa using hchild
      · rw [hpos]
        intro c' h1
        obtain ⟨hwf', hscan', hD'⟩ := hone c' h1
        refine ⟨?_, ?_, ?_⟩
        · show WfCh lo hi (k0 :: ks) (c :: cs.set (findPosition ks k) c')
          exact WfCh.cons hwc hlo0 hhi0 (hD' k0 rfl hD) hwf'
        · show scanList (c :: cs.set (findPosition ks k) c') = _
          simp only [scanList_cons]
          rw [hscan']
          exact (orderedInsert_append_of_lt k r (scanNode c) (scanList cs) hclt).symm
        · intro a ha hafk
          exact hafk
      · rw [hpos]
        intro l s rn h2
        obtain ⟨hlos', hhis', hwf', hscan', hD'⟩ := hsplit l s rn h2
        have hk0s : k0 < s := hlos' k0 rfl
        have hpos2 : findPosition (k0 :: ks) s = findPosition ks s + 1 := by
          simp [findPosition, not_le.mpr hk0s]
        rw [hpos2]
        refine ⟨fun b hb => lt_of_le_of_lt (hlo0 b hb) hk0s, hhis', ?_, ?_, ?_⟩
        · show WfCh lo hi (k0 :: ks.insertIdx (findPosition ks s) s)
            (c :: (cs.set (findPosition ks k) l).insertIdx (findPosition ks s + 1) rn)
          exact WfCh.cons hwc hlo0 hhi0 (hD' k0 rfl hD) hwf'
        · show scanList
            (c :: (cs.set (findPosition ks k) l).insertIdx (findPosition ks s + 1) rn) = _
          simp only [scanList_cons]
          rw [hscan']
          exact (orderedInsert_append_of_lt k r (scanNode c) (scanList cs) hclt).symm
        · intro a ha hafk
          exact hafk

/-- Splitting a strictly sorted, bounded entry list at an interior
position yields two well-formed leaves around the right half's first key. -/
theorem leaf_split_facts (lo hi : Option Int) (E : List (Int × Rec)) (sp : Nat)
    (hsort : List.Chain' (· < ·) (E.map Prod.fst))
    (hb : ∀ p ∈ E, loOk lo p.1 ∧ hiLt hi p.1)
    (hsp1 : 1 ≤ sp) (hsp2 : sp < E.length) :
    Wf lo (some ((E.drop sp).headD (0, [])).1) (.leaf (E.take sp)) ∧
    Wf (some ((E.drop sp).headD (0, [])).1) hi (.leaf (E.drop sp)) ∧
    loLt lo ((E.drop sp).headD (0, [])).1 ∧ hiLt hi ((E.drop sp).headD (0, [])).1 ∧
    ((E.drop sp).headD (0, [])).1 ∈ (E.drop sp).map Prod.fst ∧
    E.take sp ≠ [] := by
  have hpw : List.Pairwise (· < ·) (E.map Prod.fst) := List.chain'_iff_pairwise.mp hsort
  have hcross : ∀ p ∈ E.take sp, ∀ p' ∈ E.drop sp, p.1 < p'.1 := by
    intro p hp p' hp'
    have hsplitE : (E.take sp).map Prod.fst ++ (E.drop sp).map Prod.fst = E.map Prod.fst := by
      rw [← List.map_append, List.take_append_drop]
    rw [← hsplitE] at hpw
    exact (List.pairwise_append.mp hpw).2.2 p.1 (List.mem_map.mpr ⟨p, hp, rfl⟩)
      p'.1 (List.mem_map.mpr ⟨p', hp', rfl⟩)
  cases hdrop : E.drop sp with
  | nil =>
    exfalso
    have := congrArg List.length hdrop
    rw [List.length_drop] at this
    simp only [List.length_nil] at this
    omega
  | cons q qs =>
    have hqmem : q ∈ E.drop sp := by rw [hdrop]; simp
    have hqE : q ∈ E := List.drop_subset sp E hqmem
    have htakene : E.take sp ≠ [] := by
      intro habs
      have := congrArg List.length habs
      rw [List.length_take] at this
      simp only [List.length_nil] at this
      omega
    rw [List.headD_cons, ← hdrop]
    have hpwd : ∀ y ∈ qs.map Prod.fst, q.1 < y := by
      have hds : List.Chain' (· < ·) ((E.drop sp).map Prod.fst) := by
        rw [List.map_drop]
        exact hsort.drop sp
      rw [hdrop, List.map_cons] at hds
      have := List.chain'_iff_pairwise.mp hds
      exact (List.pairwise_cons.mp this).1
    refine ⟨?_, ?_, ?_, ?_, ?_, htakene⟩
    · refine Wf.leaf ?_ ?_
      · rw [List.map_take]
        exact hsort.take sp
      · intro p hp
        refine ⟨(hb p (List.take_subset sp E hp)).1, ?_⟩
        intro b hb'
        cases hb'
        exact hcross p hp q hqmem
    · refine Wf.leaf ?_ ?_
      · rw [List.map_drop]
        exact hsort.drop sp
      · intro p hp
        refine ⟨?_, (hb p (List.drop_subset sp E hp)).2⟩
        intro b hb'
        cases hb'
        rw [hdrop] at hp
        rcases List.mem_cons.mp hp with hEq | hMem
        · rw [hEq]
        · exact le_of_lt (hpwd p.1 (List.mem_map.mpr ⟨p, hMem, rfl⟩))
    · intro a ha
      cases htake : E.take sp with
      | nil => exact absurd htake htakene
      | cons e0 rest =>
        have he0t : e0 ∈ E.take sp := by rw [htake]; simp
        have he0E : e0 ∈ E := List.take_subset sp E he0t
        have h1 : a ≤ e0.1 := (hb e0 he0E).1 a ha
        have h2 : e0.1 < q.1 := hcross e0 he0t q hqmem
        omega
    · exact (hb q hqE).2
    · rw [hdrop]
      simp

/-- `insertNode` on a well-formed subtree with a fresh in-bounds key
satisfies the insert postcondition. -/
theorem insert_spec (k : Int) (r : Rec) :
    ∀ (t : BNode) (lo hi : Option Int), Wf lo hi t → loLt lo k → hiLt hi k →
      k ∉ (scanNode t).map Prod.fst → insOk lo hi t k r
  | .leaf entries => fun lo hi hwf hlok hhik hfresh => by
    cases hwf with
    | leaf hs hb =>
      have hE : insertIntoLeaf entries k r = List.orderedInsert entLe (k, r) entries :=
        insertIntoLeaf_eq_orderedInsert k r entries
      have hfresh' : k ∉ entries.map Prod.fst := hfresh
      have hsortE : List.Chain' (· < ·) ((insertIntoLeaf entries k r).map Prod.fst) := by
        rw [hE, map_fst_orderedInsert]
        exact orderedInsertKey_sorted k (entries.map Prod.fst) hs hfresh'
      have hbE : ∀ p ∈ insertIntoLeaf entries k r, loOk lo p.1 ∧ hiLt hi p.1 := by
        intro p hp
        rw [hE] at hp
        have := (List.perm_orderedInsert entLe (k, r) entries).mem_iff.mp hp
        rcases List.mem_cons.mp this with hEq | hMem
        · subst hEq
          exact ⟨fun a ha => le_of_lt (hlok a ha), hhik⟩
        · exact hb p hMem
      constructor
      · intro t' h1
        rw [insertNode_leaf_eq] at h1
        split at h1
        · cases h1
        · injection h1 with h1
          subst h1
          refine ⟨Wf.leaf hsortE hbE, ?_⟩
          show insertIntoLeaf entries k r = _
          rw [hE]
          rfl
      · intro L S R h1
        rw [insertNode_leaf_eq] at h1
        split at h1
        case isFalse => cases h1
        case isTrue hcond =>
          injection h1 with hL hS hR
          subst hL
          subst hS
          subst hR
          have hsp1 : 1 ≤ ((insertIntoLeaf entries k r).length + 1) / 2 := by
            have : (3 : Nat) < (insertIntoLeaf entries k r).length := hcond
            omega
          have hsp2 : ((insertIntoLeaf entries k r).length + 1) / 2
              < (insertIntoLeaf entries k r).length := by
            have : (3 : Nat) < (insertIntoLeaf entries k r).length := hcond
            omega
          obtain ⟨hwl, hwr, hlos, hhis, hsmem, htne⟩ :=
            leaf_split_facts lo hi (insertIntoLeaf entries k r)
              (((insertIntoLeaf entries k r).length + 1) / 2) hsortE hbE hsp1 hsp2
          refine ⟨hwl, hwr, hlos, hhis, hsmem, htne, ?_⟩
          show List.take _ (insertIntoLeaf entries k r) ++ List.drop _ (insertIntoLeaf entries k r)
            = List.orderedInsert entLe (k, r) entries
          rw [List.take_append_drop, hE]
  | .internal keys children => fun lo hi hwf hlok hhik hfresh => by
    have IH : ∀ c ∈ children, ∀ lo' hi' : Option Int, Wf lo' hi' c → loLt lo' k →
        hiLt hi' k → k ∉ (scanNode c).map Prod.fst → insOk lo' hi' c k r :=
      fun c hc lo' hi' h1 h2 h3 h4 => insert_spec k r c lo' hi' h1 h2 h3 h4
    cases hwf with
    | internal hch =>
      have hfresh' : k ∉ (scanList children).map Prod.fst := hfresh
      obtain ⟨child, hchild, hone, hsplit⟩ := splice_spec k r hch IH hlok hhik hfresh'
      constructor
      · intro t' h1
        cases hins : insertNode child k r with
        | one c' =>
          rw [insertNode_internal_one keys children k r child c' hchild hins] at h1
          injection h1 with h1
          subst h1
          obtain ⟨hwfch', hscan', _⟩ := hone c' hins
          exact ⟨Wf.internal hwfch', hscan'⟩
        | split l s rn =>
          rw [insertNode_internal_split keys children k r child l s rn hchild hins] at h1
          split at h1
          · cases h1
          · injection h1 with h1
            subst h1
            obtain ⟨_, _, hwfch', hscan', _⟩ := hsplit l s rn hins
            exact ⟨Wf.internal hwfch', hscan'⟩
      · intro L S R h1
        cases hins : insertNode child k r with
        | one c' =>
          rw [insertNode_internal_one keys children k r child c' hchild hins] at h1
          cases h1
        | split l s rn =>
          rw [insertNode_internal_split keys children k r child l s rn hchild hins] at h1
          obtain ⟨hlos, hhis, hwfch', hscan', hD'⟩ := hsplit l s rn hins
          split at h1
          case isFalse => cases h1
          case isTrue hcond =>
            injection h1 with hL hS hR
            subst hL
            subst hS
            subst hR
            have hsp1 : 1 ≤ (keys.insertIdx (findPosition keys s) s).length / 2 := by
              have : (3 : Nat) < (keys.insertIdx (findPosition keys s) s).length := hcond
              omega
            have hsp2 : (keys.insertIdx (findPosition keys s) s).length / 2
                < (keys.insertIdx (findPosition keys s) s).length := by
              have : (3 : Nat) < (keys.insertIdx (findPosition keys s) s).length := hcond
              omega
            obtain ⟨hwL, hwR, hplo, hphi, hpD, hLne⟩ := wfch_split hwfch'
              ((keys.insertIdx (findPosition keys s) s).length / 2) hsp1 hsp2
            refine ⟨Wf.internal hwL, Wf.internal hwR, hplo, hphi, ?_, ?_, ?_⟩
            · rw [scanNode_internal]
              exact mem_scanList_of_mem_first _ _ hpD
            · rw [scanNode_internal]
              exact hLne
            · rw [scanNode_internal, scanNode_internal, scanNode_internal]
              rw [scanList_take_drop]
              exact hscan'
  termination_by t => sizeOf t
  decreasing_by
    simp only [BNode.internal.sizeOf_spec]
    have := List.sizeOf_lt_of_mem hc
    omega

/-- Root-level insert on a tree that is well formed without outer bounds:
the result stays well formed and its scan is the ordered insert. -/
theorem insertB_wf (t : BTree) (k : Int) (r : Rec)
    (hwf : Wf none none t.root) (hfresh : k ∉ t.scanB.map Prod.fst) :
    Wf none none (t.insertB k r).root ∧
      (t.insertB k r).scanB = List.orderedInsert entLe (k, r) t.scanB := by
  have hok := insert_spec k r t.root none none hwf
    (fun a ha => by cases ha) (fun a ha => by cases ha) hfresh
  unfold BTree.insertB BTree.scanB
  cases hins : insertNode t.root k r with
  | one n =>
    obtain ⟨hw, hs⟩ := hok.1 n hins
    exact ⟨hw, hs⟩
  | split l s rn =>
    obtain ⟨hwl, hwr, hlos, hhis, hsm, hlne, hseq⟩ := hok.2 l s rn hins
    refine ⟨?_, ?_⟩
    · exact Wf.internal (WfCh.cons hwl (fun a ha => by cases ha) (fun a ha => by cases ha)
        hsm (WfCh.single hwr))
    · show scanNode (.internal [s] [l, rn]) = _
      rw [scanNode_internal]
      simp only [scanList_cons, scanList_nil, List.append_nil]
      exact hseq

/-- Folding root inserts of pairwise-fresh keys keeps the tree well formed
and accumulates exactly those entries, up to permutation. -/
theorem build_spec : ∀ (ps : List (Int × Rec)) (t : BTree),
    Wf none none t.root →
    (∀ p ∈ ps, p.1 ∉ t.scanB.map Prod.fst) →
    (ps.map Prod.fst).Nodup →
    Wf none none ((ps.foldl (fun a p => a.insertB p.1 p.2) t).root) ∧
    ((ps.foldl (fun a p => a.insertB p.1 p.2) t).scanB).Perm (ps ++ t.scanB)
  | [], t => fun hw _ _ => ⟨hw, by simp⟩
  | p :: rest, t => fun hw hfr hnd => by
    obtain ⟨hw1, hs1⟩ := insertB_wf t p.1 p.2 hw (hfr p (by simp))
    have hfr' : ∀ q ∈ rest, q.1 ∉ (t.insertB p.1 p.2).scanB.map Prod.fst := by
      intro q hq hmem
      rw [hs1, map_fst_orderedInsert] at hmem
      have := (List.perm_orderedInsert (· ≤ ·) p.1 (t.scanB.map Prod.fst)).mem_iff.mp hmem
      rcases List.mem_cons.mp this with hEq | hMem
      · rw [List.map_cons] at hnd
        exact (List.nodup_cons.mp hnd).1 (hEq ▸ List.mem_map.mpr ⟨q, hq, rfl⟩)
      · exact hfr q (by simp [hq]) hMem
    have hnd' : (rest.map Prod.fst).Nodup := by
      rw [List.map_cons] at hnd
      exact (List.nodup_cons.mp hnd).2
    obtain ⟨hw2, hs2⟩ := build_spec rest (t.insertB p.1 p.2) hw1 hfr' hnd'
    refine ⟨by simpa using hw2, ?_⟩
    show ((rest.foldl _ (t.insertB p.1 p.2)).scanB).Perm _
    rw [hs1] at hs2
    refine hs2.trans ?_
    have hp : (List.orderedInsert entLe (p.1, p.2) t.scanB).Perm ((p.1, p.2) :: t.scanB) :=
      List.perm_orderedInsert entLe _ _
    refine (List.Perm.append_left rest hp).trans ?_
    exact List.perm_middle

/-- C4 (amended): the executor's SELECT returns insertion order (see the
counterexample above), but the repository's B+ tree delivers the ordering
the spec describes: for every sequence of rows with pairwise-distinct
integer ids inserted in any order into an empty `BTree`, `Scan` returns
them in strictly ascending id order — it is sorted and a permutation of
the inserted rows. -/
theorem C4_btree_scan_sorted (ps : List (Int × Rec))
    (hnd : (ps.map Prod.fst).Nodup) :
    List.Chain' (· < ·)
      (((ps.foldl (fun a p => a.insertB p.1 p.2) newBTree).scanB).map Prod.fst) ∧
    ((ps.foldl (fun a p => a.insertB p.1 p.2) newBTree).scanB).Perm ps := by
  have hwempty : Wf none none newBTree.root :=
    Wf.leaf (by simp) (by intro p hp; cases hp)
  obtain ⟨hw, hperm⟩ := build_spec ps newBTree hwempty
    (by intro p hp hm; simp [BTree.scanB, newBTree, scanNode] at hm) hnd
  have hnil : newBTree.scanB = [] := rfl
  rw [hnil, List.append_nil] at hperm
  refine ⟨?_, hperm⟩
  have := wf_scan_sorted hw
  simpa [BTree.scanB] using this

/-- Witness for C4: ids 5, 3, 8, 1, 4 are distinct, so their scan is
ascending and contains exactly the inserted rows. -/
theorem C4_witness :
    ((([(5, []), (3, []), (8, []), (1, []), (4, [])] : List (Int × Rec)).map Prod.fst).Nodup) ∧
    (List.Chain' (· < ·)
      (((([(5, []), (3, []), (8, []), (1, []), (4, [])] : List (Int × Rec)).foldl
        (fun a p => a.insertB p.1 p.2) newBTree).scanB).map Prod.fst) ∧
    ((([(5, []), (3, []), (8, []), (1, []), (4, [])] : List (Int × Rec)).foldl
        (fun a p => a.insertB p.1 p.2) newBTree).scanB).Perm
      [(5, []), (3, []), (8, []), (1, []), (4, [])]) :=
  ⟨by decide, C4_btree_scan_sorted [(5, []), (3, []), (8, []), (1, []), (4, [])] (by decide)⟩

/-! ### C7: duplicate keys — `BTree.Insert` vs `BTreeSimple.Insert` -/

/-- `NodeSimple` (part_006:311): a binary-search-tree node of the simple
B-tree; `nil` models the Go nil pointer. -/
inductive NodeSimple where
  | nil
  | node (key : Int) (record : Rec) (left right : NodeSimple)
deriving DecidableEq

/-- `BTreeSimple.searchNode` (part_006:385): walk left/right by key,
returning the matching node or nil. -/
def searchNodeSimple : NodeSimple → Int → NodeSimple
  | .nil, _ => .nil
  | .node k0 r0 l r, k =>
    if k = k0 then .node k0 r0 l r
    else if k < k0 then searchNodeSimple l k
    else searchNodeSimple r k

/-- `BTreeSimple.Search` (part_006:371): nil root yields nil; otherwise the
found node's record. -/
def btSimpleSearch (root : NodeSimple) (k : Int) : Option Rec :=
  match root with
  | .nil => none
  | _ =>
    match searchNodeSimple root k with
    | .nil => none
    | .node _ r0 _ _ => some r0

/-- `BTreeSimple.insertNode` (part_006:351): attach the new node at the
first empty slot along the search path; an equal key is an error.  The Go
method is never called with a nil root (`Insert` checks first); that
unreachable case is mapped to the same duplicate error. -/
def insertNodeSimple : NodeSimple → Int → Rec → Except String NodeSimple
  | .nil, k, _ => .error ("record with key " ++ toString k ++ " already exists")
  | .node k0 r0 l r, k, rec =>
    if k < k0 then
      match l with
      | .nil => .ok (.node k0 r0 (.node k rec .nil .nil) r)
      | .node lk lr ll lrr =>
        (insertNodeSimple (.node lk lr ll lrr) k rec).map (fun l' => .node k0 r0 l' r)
    else if k0 < k then
      match r with
      | .nil => .ok (.node k0 r0 l (.node k rec .nil .nil))
      | .node rk rr rl rrr =>
        (insertNodeSimple (.node rk rr rl rrr) k rec).map (fun r' => .node k0 r0 l r')
    else .error ("record with key " ++ toString k ++ " already exists")

/-- `BTreeSimple.Insert` (part_006:326): reject when `Search` already
finds the key; an empty tree receives the new node as root. -/
def btSimpleInsert (root : NodeSimple) (k : Int) (rec : Rec) : Except String NodeSimple :=
  match btSimpleSearch root k with
  | some _ => .error ("record with key " ++ toString k ++ " already exists")
  | none =>
    match root with
    | .nil => .ok (.node k rec .nil .nil)
    | _ => insertNodeSimple root k rec

/-- When the search path ends at nil, `insertNode` attaches the node and
reports no error. -/
theorem insertNodeSimple_ok : ∀ (root : NodeSimple) (k : Int) (rec : Rec),
    root ≠ .nil → searchNodeSimple root k = .nil →
    ∃ t', insertNodeSimple root k rec = .ok t'
  | .nil, _, _ => fun h _ => absurd rfl h
  | .node k0 r0 l r, k, rec => fun _ hs => by
    by_cases h1 : k = k0
    · rw [searchNodeSimple, if_pos h1] at hs
      cases hs
    · by_cases h2 : k < k0
      · rw [searchNodeSimple, if_neg h1, if_pos h2] at hs
        cases l with
        | nil =>
          refine ⟨.node k0 r0 (.node k rec .nil .nil) r, ?_⟩
          rw [insertNodeSimple.eq_def]
          simp [h2]
        | node lk lr ll lrr =>
          obtain ⟨t', ht'⟩ := insertNodeSimple_ok (.node lk lr ll lrr) k rec (by simp) hs
          refine ⟨.node k0 r0 t' r, ?_⟩
          rw [insertNodeSimple.eq_def]
          simp [h2, ht', Except.map]
      · have h3 : k0 < k := by omega
        rw [searchNodeSimple, if_neg h1, if_neg h2] at hs
        cases r with
        | nil =>
          refine ⟨.node k0 r0 l (.node k rec .nil .nil), ?_⟩
          rw [insertNodeSimple.eq_def]
          simp [h2, h3]
        | node rk rr rl rrr =>
          obtain ⟨t', ht'⟩ := insertNodeSimple_ok (.node rk rr rl rrr) k rec (by simp) hs
          refine ⟨.node k0 r0 l t', ?_⟩
          rw [insertNodeSimple.eq_def]
          simp [h2, h3, ht', Except.map]

/-- Counterexample to C7 as stated about the B+ tree (part_007): its
`Insert` never reports a duplicate — inserting id 1 twice stores two
entries, so "calling insert with a present id returns an error" is false
of `BTree.Insert`. -/
theorem C7_bplustree_insert_accepts_duplicate :
    ((newBTree.insertB 1 []).insertB 1 []).scanB = [(1, []), (1, [])] := by
  have h1 : insertNode (.leaf []) 1 [] = .one (.leaf [(1, [])]) := by
    rw [insertNode_leaf_eq]
    rfl
  have h2 : insertNode (.leaf [(1, [])]) 1 [] = .one (.leaf [(1, []), (1, [])]) := by
    rw [insertNode_leaf_eq]
    rfl
  have e1 : newBTree.insertB 1 [] = ⟨.leaf [(1, [])]⟩ := by
    unfold BTree.insertB
    simp only [newBTree, h1]
  have e2 : (⟨.leaf [(1, [])]⟩ : BTree).insertB 1 [] = ⟨.leaf [(1, []), (1, [])]⟩ := by
    unfold BTree.insertB
    simp only [h2]
  rw [e1, e2]
  rfl

/-- C7 (amended): the duplicate-key contract holds of `BTreeSimple`
(part_006), not of the B+ tree `BTree` (part_007): `BTreeSimple.Insert`
returns the duplicate error exactly when `Search` already finds the key,
and succeeds when it does not. -/
theorem C7_btreesimple_duplicate_rejected (root : NodeSimple) (k : Int) (rec : Rec) :
    ((∃ r0, btSimpleSearch root k = some r0) →
      btSimpleInsert root k rec
        = .error ("record with key " ++ toString k ++ " already exists")) ∧
    (btSimpleSearch root k = none →
      ∃ t', btSimpleInsert root k rec = .ok t') := by
  constructor
  · intro ⟨r0, hs⟩
    unfold btSimpleInsert
    simp only [hs]
  · intro hs
    unfold btSimpleInsert
    simp only [hs]
    cases hroot : root with
    | nil => exact ⟨_, rfl⟩
    | node k0 r0 l r =>
      have hsn : searchNodeSimple (.node k0 r0 l r) k = .nil := by
        rw [hroot] at hs
        unfold btSimpleSearch at hs
        cases hsn : searchNodeSimple (.node k0 r0 l r) k with
        | nil => rfl
        | node a b c d => rw [hsn] at hs; cases hs
      exact insertNodeSimple_ok (.node k0 r0 l r) k rec (by simp) hsn

/-- Witness for C7: a one-node tree with key 1 rejects a second insert of
key 1, and accepts key 2. -/
theorem C7_witness :
    (btSimpleInsert (.node 1 [] .nil .nil) 1 []
        = .error ("record with key " ++ toString (1 : Int) ++ " already exists")) ∧
    (∃ t', btSimpleInsert (.node 1 [] .nil .nil) 2 [] = .ok t') :=
  ⟨(C7_btreesimple_duplicate_rejected (.node 1 [] .nil .nil) 1 []).1 ⟨[], rfl⟩,
   (C7_btreesimple_duplicate_rejected (.node 1 [] .nil .nil) 2 []).2 rfl⟩

/-! ### C6: UPDATE — the `sqlight` dispatcher vs the sqlite-clone `Table.Update` -/

/-- ASCII uppercase of a character (kernel-reducible). -/
def charUpper (c : Char) : Char :=
  if 'a' ≤ c ∧ c ≤ 'z' then Char.ofNat (c.toNat - 32) else c

/-- ASCII `strings.ToUpper` (the Go function also folds non-ASCII letters;
no claim involves those). -/
def strUpper (s : String) : String :=
  ⟨s.data.map charUpper⟩

/-- A character `strings.TrimSpace` removes (the ASCII ones). -/
def isSpaceChar (c : Char) : Bool :=
  c = ' ' ∨ c = '\t' ∨ c = '\n' ∨ c = '\r'

/-- `strings.TrimSpace`, on the character list. -/
def goTrimSpace (s : String) : String :=
  ⟨((s.data.dropWhile isSpaceChar).reverse.dropWhile isSpaceChar).reverse⟩

/-- `strings.TrimSuffix`, on the character list. -/
def goTrimSuffix (s suf : String) : String :=
  if s.data.reverse.take suf.data.length = suf.data.reverse then
    ⟨s.data.take (s.data.length - suf.data.length)⟩
  else s

/-- `strings.HasPrefix`, on the character list. -/
def strStartsWith (s pre : String) : Bool :=
  s.data.take pre.data.length = pre.data

/-- The statement shapes `ParseSQL` (pkg/sql/parser.go:11) can produce. -/
inductive SqlKind where
  | createTable
  | insertInto
  | selectFrom
deriving DecidableEq

/-- `ParseSQL`'s dispatch (parser.go:11): trim space, strip one trailing
semicolon, uppercase, and test the leading keyword; every other statement
— UPDATE, DELETE, DROP, … — is `unsupported SQL statement`.  Which parser
runs afterwards is irrelevant to acceptance. -/
def parseSQLKind (sql : String) : Except String SqlKind :=
  if strStartsWith (strUpper (goTrimSuffix (goTrimSpace sql) ";")) "CREATE TABLE" then
    .ok .createTable
  else if strStartsWith (strUpper (goTrimSuffix (goTrimSpace sql) ";")) "INSERT INTO" then
    .ok .insertInto
  else if strStartsWith (strUpper (goTrimSuffix (goTrimSpace sql) ";")) "SELECT" then
    .ok .selectFrom
  else .error "unsupported SQL statement"

/-- The Go dynamic type name of a modelled value (`%T`). -/
def goTypeName : Val → String
  | .int _ => "int"
  | .float _ => "float64"
  | .str _ => "string"
  | .bool _ => "bool"
  | .null => "<nil>"

/-- The `isMatch` computation of `Table.Update` (table.go:355): a float64
WHERE value matches float64 or int cell values after coercion; a string
WHERE value matches string cells; everything else never matches. -/
def updMatch (val whereVal : Val) : Bool :=
  match whereVal with
  | .float w =>
    match val with
    | .float v => v == w
    | .int v => (v : Rat) == w
    | _ => false
  | .str w =>
    match val with
    | .str v => v == w
    | _ => false
  | _ => false

/-- `for k, v := range setColumns { record.Columns[k] = v }` (table.go:381). -/
def applySet (rc : Rec) (setCols : List (String × Val)) : Rec :=
  setCols.foldl (fun r p => assocPut r p.1 p.2) rc

/-- The id extraction of `Table.Update` (table.go:388): float64 ids are
truncated, int ids taken as is, anything else is an error. -/
def goIdOf (rc : Rec) : Except String Int :=
  match recGet rc "id" with
  | .float q => .ok (ratTrunc q)
  | .int v => .ok v
  | v => .error ("invalid id type: " ++ goTypeName v)

/-- The record loop of `Table.Update` (table.go:352): records without the
WHERE column are skipped (and so dropped from the rebuilt tree); matching
records get the SET assignments; each kept record is queued for the new
tree under its id.  Returns the queued `(id, record)` pairs and the
`updated` flag. -/
def updateFold : List Rec → List (String × Val) → String → Val →
    Except String (List (Int × Rec) × Bool)
  | [], _, _, _ => .ok ([], false)
  | rc :: rest, setCols, whereCol, whereVal =>
    match recGet? rc whereCol with
    | none => updateFold rest setCols whereCol whereVal
    | some val =>
      match goIdOf (if updMatch val whereVal then applySet rc setCols else rc) with
      | .error e => .error e
      | .ok i =>
        match updateFold rest setCols whereCol whereVal with
        | .error e => .error e
        | .ok (l, u) =>
          .ok ((i, if updMatch val whereVal then applySet rc setCols else rc) :: l,
            updMatch val whereVal || u)

/-- `Table.Update` (table.go:338) on the scanned record list: error when
the table is empty or when no record matched; otherwise the rebuilt
tree's contents.  (`newTree.Insert` never fails and its error is
discarded, so the tree receives exactly these pairs.) -/
def tableUpdate (records : List Rec) (setCols : List (String × Val))
    (whereCol : String) (whereVal : Val) : Except String (List (Int × Rec)) :=
  if records.length = 0 then .error "no records found"
  else
    match updateFold records setCols whereCol whereVal with
    | .error e => .error e
    | .ok (l, updated) =>
      if updated then .ok l else .error "no records matched the update criteria"

/-- The record each input row contributes to the rebuilt table: skipped
without the WHERE column, updated when it matches, untouched otherwise. -/
def updatedRow (rc : Rec) (setCols : List (String × Val))
    (whereCol : String) (whereVal : Val) : Option Rec :=
  match recGet? rc whereCol with
  | none => none
  | some val => some (if updMatch val whereVal then applySet rc setCols else rc)

/-- Characterisation of the update loop when every produced record has a
usable id: it succeeds, queues exactly the per-row results, and sets the
`updated` flag exactly when some row matched. -/
theorem updateFold_spec (setCols : List (String × Val)) (whereCol : String) (whereVal : Val) :
    ∀ records : List Rec,
    (∀ rc ∈ records, ∀ r', updatedRow rc setCols whereCol whereVal = some r' →
      ∃ i, goIdOf r' = .ok i) →
    ∃ l u, updateFold records setCols whereCol whereVal = .ok (l, u) ∧
      l.map Prod.snd = records.filterMap (fun rc => updatedRow rc setCols whereCol whereVal) ∧
      (u = true ↔ ∃ rc ∈ records, ∃ val, recGet? rc whereCol = some val ∧
        updMatch val whereVal = true)
  | [] => fun _ => ⟨[], false, rfl, by simp, by simp⟩
  | rc :: rest => fun hid => by
    obtain ⟨l, u, hfold, hmap, hiff⟩ :=
      updateFold_spec setCols whereCol whereVal rest
        (fun r hr => hid r (List.mem_cons_of_mem rc hr))
    cases hget : recGet? rc whereCol with
    | none =>
      refine ⟨l, u, ?_, ?_, ?_⟩
      · rw [updateFold]
        simp only [hget]
        exact hfold
      · rw [hmap]
        simp [updatedRow, hget]
      · rw [hiff]
        constructor
        · rintro ⟨r, hr, val, hv, hm⟩
          exact ⟨r, List.mem_cons_of_mem rc hr, val, hv, hm⟩
        · rintro ⟨r, hr, val, hv, hm⟩
          rcases List.mem_cons.mp hr with hEq | hMem
          · subst hEq
            rw [hget] at hv
            cases hv
          · exact ⟨r, hMem, val, hv, hm⟩
    | some val =>
      have hrow : updatedRow rc setCols whereCol whereVal
          = some (if updMatch val whereVal then applySet rc setCols else rc) := by
        simp [updatedRow, hget]
      obtain ⟨i, hi⟩ := hid rc (List.mem_cons_self rc rest) _ hrow
      refine ⟨(i, if updMatch val whereVal then applySet rc setCols else rc) :: l,
        updMatch val whereVal || u, ?_, ?_, ?_⟩
      · rw [updateFold]
        simp only [hget, hi, hfold]
      · simp only [List.map_cons, List.filterMap_cons, hrow, hmap]
      · constructor
        · intro hor
          rcases Bool.or_eq_true_iff.mp hor with hm | hu
          · exact ⟨rc, List.mem_cons_self rc rest, val, hget, hm⟩
          · obtain ⟨r, hr, val', hv, hm⟩ := hiff.mp hu
            exact ⟨r, List.mem_cons_of_mem rc hr, val', hv, hm⟩
        · rintro ⟨r, hr, val', hv, hm⟩
          rcases List.mem_cons.mp hr with hEq | hMem
          · subst hEq
            rw [hget] at hv
            injection hv with hv
            subst hv
            exact Bool.or_eq_true_iff.mpr (Or.inl hm)
          · exact Bool.or_eq_true_iff.mpr (Or.inr (hiff.mpr ⟨r, hMem, val', hv, hm⟩))

/-- Counterexample to C6 as stated: the `sqlight` pipeline's parser
(pkg/sql/parser.go) accepts only CREATE TABLE, INSERT INTO and SELECT, so
a parsed UPDATE never reaches the dispatcher — it is rejected as
unsupported. -/
theorem C6_update_rejected_as_unsupported :
    parseSQLKind "UPDATE products SET price = 200 WHERE id = 1"
      = .error "unsupported SQL statement" := by decide

/-- C6 (amended): the `sqlight` engine rejects UPDATE as unsupported (see
the counterexample), while the sqlite-clone variant's `Table.Update`
(table.go:338) does execute it: on a nonempty record list whose produced
rows all carry usable ids and in which at least one row has the WHERE
column with a matching value, the update succeeds, and the rebuilt table
holds exactly the per-row results — SET assignments applied to every
matching row, non-matching rows kept unchanged, rows lacking the WHERE
column silently dropped. -/
theorem C6_table_update_applies_assignments (records : List Rec)
    (setCols : List (String × Val)) (whereCol : String) (whereVal : Val)
    (hne : records ≠ [])
    (hid : ∀ rc ∈ records, ∀ r', updatedRow rc setCols whereCol whereVal = some r' →
      ∃ i, goIdOf r' = .ok i)
    (hmatch : ∃ rc ∈ records, ∃ val, recGet? rc whereCol = some val ∧
      updMatch val whereVal = true) :
    ∃ l, tableUpdate records setCols whereCol whereVal = .ok l ∧
      l.map Prod.snd
        = records.filterMap (fun rc => updatedRow rc setCols whereCol whereVal) := by
  obtain ⟨l, u, hfold, hmap, hiff⟩ := updateFold_spec setCols whereCol whereVal records hid
  have hu : u = true := hiff.mpr hmatch
  refine ⟨l, ?_, hmap⟩
  unfold tableUpdate
  rw [if_neg (by simpa using hne)]
  rw [hfold, hu]
  rfl

/-- Witness for C6's amended theorem: updating `price` to 200 where
`id = 1` on the two-row products table rewrites exactly the first row. -/
theorem C6_witness :
    ∃ l, tableUpdate
        [[("id", Val.int 1), ("price", Val.int 100)],
         [("id", Val.int 2), ("price", Val.int 150)]]
        [("price", Val.float 200)] "id" (Val.float 1)
        = .ok l ∧
      l.map Prod.snd
        = [[("id", Val.int 1), ("price", Val.float 200)],
           [("id", Val.int 2), ("price", Val.int 150)]] := by
  obtain ⟨l, hl, hm⟩ := C6_table_update_applies_assignments
    [[("id", Val.int 1), ("price", Val.int 100)],
     [("id", Val.int 2), ("price", Val.int 150)]]
    [("price", Val.float 200)] "id" (Val.float 1)
    (by decide)
    (by
      intro rc hrc r' hr'
      rcases List.mem_cons.mp hrc with h1 | hrc2
      · subst h1
        injection hr' with hr'
        exact ⟨1, by rw [← hr']; decide⟩
      · rcases List.mem_cons.mp hrc2 with h2 | h3
        · subst h2
          injection hr' with hr'
          exact ⟨2, by rw [← hr']; decide⟩
        · cases h3)
    ⟨[("id", Val.int 1), ("price", Val.int 100)], by decide,
      Val.int 1, by decide, by decide⟩
  exact ⟨l, hl, by rw [hm]; decide⟩
